import Mathlib

/-!
Verification of the dependency-graph visualizer (two source variants:
`dependency_visualizer.py`, the flat-container variant, and `main.py`, the
registration-API variant).  The development embeds, in order:

* a model of `packaging.version` parsing/ordering on the semantic-version-like
  fragment the program relies on (release digits, pre-release segment, dev
  segment), together with `get_latest_stable_version` of both variants;
* the graph builder `build_dependency_graph`, parameterised by the four
  resolution steps (version listing, stable-version selection, archive
  download, manifest parsing), each of which may fail with an arbitrary error;
* the manifest parser `extract_dependencies` of both variants over a model of
  `xml.etree.ElementTree` documents;
* the DOT renderer `generate_dot`.
-/

set_option maxRecDepth 4000

deriving instance DecidableEq for Except

/-! ### Character and string utilities (Python `str.lower`, markers) -/

/-- Lower-case an ASCII character, as Python `str.lower` does on ASCII text. -/
def pyCharLower (c : Char) : Char :=
  if 'A' ≤ c ∧ c ≤ 'Z' then Char.ofNat (c.toNat + 32) else c

/-- Lower-case a character list (model of Python `str.lower`). -/
def pyLower (l : List Char) : List Char := l.map pyCharLower

/-- Lower-case a string (model of Python `str.lower`). -/
def pyLowerS (s : String) : String := ⟨pyLower s.data⟩

/-- Containment of one character sequence in another (Python `in` on `str`). -/
def strContains : List Char → List Char → Bool
  | [], needle => needle.isEmpty
  | c :: t, needle => needle.isPrefixOf (c :: t) || strContains t needle

/-! ### Model of `packaging.version.Version`

The program feeds registry version strings to `packaging.version.parse`.  We
model the parser on the fragment of its grammar that semantic-version-style
registry versions use: a dotted release segment of decimal numerals, an
optional pre-release segment (separator, keyword among
a/b/c/rc/alpha/beta/pre/preview, separator, numeral), and an optional dev
segment (separator, `dev`, separator, numeral).  Epochs, post-releases, local
segments and leading `v` are outside the model: such strings "fail to parse".
`is_prerelease` is true when a pre or dev segment is present, exactly as in
`packaging`. -/

structure PyVersion where
  release : List Nat
  pre : Option (Nat × Nat)
  dev : Option Nat
deriving Repr, DecidableEq

/-- Whether the parsed version is a pre-release (`Version.is_prerelease`). -/
def PyVersion.is_prerelease (v : PyVersion) : Bool :=
  v.pre.isSome || v.dev.isSome

/-- Decimal value of a digit list (all characters assumed digits). -/
def digitsToNat (l : List Char) : Nat :=
  l.foldl (fun n c => n * 10 + (c.toNat - '0'.toNat)) 0

/-- Split a character list at `.` separators. -/
def splitDots : List Char → List (List Char)
  | [] => [[]]
  | c :: rest =>
      if c = '.' then [] :: splitDots rest
      else
        match splitDots rest with
        | [] => [[c]]
        | g :: gs => (c :: g) :: gs

/-- Check that every dot-separated group is a nonempty digit numeral, and
convert the groups to the release number list. -/
def checkGroups (gs : List (List Char)) : Option (List Nat) :=
  if gs.all (fun g => !g.isEmpty && g.all Char.isDigit) then
    some (gs.map digitsToNat)
  else none

/-- Separator characters accepted between version segments. -/
def isSepChar (c : Char) : Bool := c = '-' || c = '_' || c = '.'

/-- Pre-release keywords with their normalized phase (a=0, b=1, rc=2), longest
first so that `preview` is not read as `pre`. -/
def preKeywords : List (List Char × Nat) :=
  [("preview".data, 2), ("alpha".data, 0), ("beta".data, 1), ("pre".data, 2),
   ("rc".data, 2), ("a".data, 0), ("b".data, 1), ("c".data, 2)]

/-- Try to read one keyword of `kws` at the head of `l`. -/
def matchKw : List (List Char × Nat) → List Char → Option (Nat × List Char)
  | [], _ => none
  | (kw, phase) :: rest, l =>
      if kw.isPrefixOf l then some (phase, l.drop kw.length)
      else matchKw rest l

/-- Drop one leading separator character if present. -/
def dropOneSep (l : List Char) : List Char :=
  match l with
  | c :: rest => if isSepChar c then rest else l
  | [] => []

/-- Try to read a pre-release segment (optional separator when `allowSep`,
keyword, optional separator, optional numeral); on failure consume nothing. -/
def tryPre (allowSep : Bool) (l : List Char) : Option (Nat × Nat) × List Char :=
  let s1 := if allowSep then dropOneSep l else l
  match matchKw preKeywords s1 with
  | some (phase, rest) =>
      let rest1 := dropOneSep rest
      let ds := rest1.takeWhile Char.isDigit
      (some (phase, digitsToNat ds), rest1.dropWhile Char.isDigit)
  | none => (none, l)

/-- Try to read a dev segment (optional separator when `allowSep`, `dev`,
optional separator, optional numeral); on failure consume nothing. -/
def tryDev (allowSep : Bool) (l : List Char) : Option Nat × List Char :=
  let s1 := if allowSep then dropOneSep l else l
  if "dev".data.isPrefixOf s1 then
    let rest := s1.drop 3
    let rest1 := dropOneSep rest
    let ds := rest1.takeWhile Char.isDigit
    (some (digitsToNat ds), rest1.dropWhile Char.isDigit)
  else (none, l)

/-- Parse the suffix after the release segment.  `allowSep` is false when the
dot ending the release part already served as the separator. -/
def parseSuffix (release : List Nat) (allowSep : Bool) (l : List Char) :
    Option PyVersion :=
  let (preO, rest1) := tryPre allowSep l
  let devAllow := if preO.isSome then true else allowSep
  let (devO, rest2) := tryDev devAllow rest1
  if rest2.isEmpty then some ⟨release, preO, devO⟩ else none

/-- Model of `packaging.version.parse` on character lists; `none` models the
`InvalidVersion` exception. -/
def parseVersionChars (l : List Char) : Option PyVersion :=
  let low := pyLower l
  let rel := low.takeWhile (fun c => c.isDigit || c = '.')
  let suf := low.dropWhile (fun c => c.isDigit || c = '.')
  let gs := splitDots rel
  let sepEaten := !gs.isEmpty && gs.getLast? = some [] && !suf.isEmpty
  let gs1 := if sepEaten then gs.dropLast else gs
  match checkGroups gs1 with
  | none => none
  | some release =>
      if release.isEmpty then none
      else parseSuffix release (!sepEaten) suf

/-- Model of `packaging.version.parse` (`version.parse` in the source). -/
def version_parse (s : String) : Option PyVersion :=
  parseVersionChars s.data

/-- Rendering of a parsed version back to text (`str(Version)`), as used by
the flat-container variant's `return str(latest_version)`. -/
def str_of_version (v : PyVersion) : String :=
  let rel := String.intercalate "." (v.release.map toString)
  let preS := match v.pre with
    | none => ""
    | some (phase, n) =>
        (if phase = 0 then "a" else if phase = 1 then "b" else "rc") ++ toString n
  let devS := match v.dev with
    | none => ""
    | some n => ".dev" ++ toString n
  rel ++ preS ++ devS

/-! ### Version ordering

`packaging` compares versions by the key (release with trailing zeros
stripped, pre-release key, dev key): a dev-only version sorts below any
pre-release of the same release, which sorts below the final release.  We
realise the key as nested pairs compared lexicographically. -/

/-- Three-way comparison on naturals. -/
def cmpN (a b : Nat) : Ordering :=
  if a < b then Ordering.lt else if b < a then Ordering.gt else Ordering.eq

/-- Lexicographic three-way comparison of number lists (Python tuple order). -/
def cmpList : List Nat → List Nat → Ordering
  | [], [] => Ordering.eq
  | [], _ :: _ => Ordering.lt
  | _ :: _, [] => Ordering.gt
  | a :: as, b :: bs => (cmpN a b).then (cmpList as bs)

/-- Lexicographic combination of two comparators on a product. -/
def prodCmp {α β : Type} (ca : α → α → Ordering) (cb : β → β → Ordering)
    (x y : α × β) : Ordering :=
  (ca x.1 y.1).then (cb x.2 y.2)

/-- A comparator that decides equality, is antisymmetric and transitive. -/
structure LawfulCmp {α : Type} (cmp : α → α → Ordering) : Prop where
  eq_iff : ∀ a b, cmp a b = Ordering.eq ↔ a = b
  gt_iff : ∀ a b, cmp a b = Ordering.gt ↔ cmp b a = Ordering.lt
  lt_trans : ∀ a b c, cmp a b = Ordering.lt → cmp b c = Ordering.lt →
    cmp a c = Ordering.lt

theorem then_eq_eq (o p : Ordering) :
    o.then p = Ordering.eq ↔ o = Ordering.eq ∧ p = Ordering.eq := by
  cases o <;> simp [Ordering.then]

theorem then_eq_lt (o p : Ordering) :
    o.then p = Ordering.lt ↔ o = Ordering.lt ∨ (o = Ordering.eq ∧ p = Ordering.lt) := by
  cases o <;> simp [Ordering.then]

theorem then_eq_gt (o p : Ordering) :
    o.then p = Ordering.gt ↔ o = Ordering.gt ∨ (o = Ordering.eq ∧ p = Ordering.gt) := by
  cases o <;> simp [Ordering.then]

theorem cmpN_eq_iff (a b : Nat) : cmpN a b = Ordering.eq ↔ a = b := by
  unfold cmpN
  split <;> rename_i h1
  · constructor
    · intro h; cases h
    · omega
  · split <;> rename_i h2
    · constructor
      · intro h; cases h
      · omega
    · constructor
      · intro _; omega
      · intro _; rfl

theorem cmpN_lt_iff (a b : Nat) : cmpN a b = Ordering.lt ↔ a < b := by
  unfold cmpN
  split <;> rename_i h1
  · simp [h1]
  · split <;> simp <;> omega

theorem cmpN_gt_iff (a b : Nat) : cmpN a b = Ordering.gt ↔ cmpN b a = Ordering.lt := by
  rw [cmpN_lt_iff]
  unfold cmpN
  split <;> rename_i h1
  · constructor
    · intro h; cases h
    · omega
  · split <;> rename_i h2
    · simp [h2]
    · constructor
      · intro h; cases h
      · omega

theorem lawful_cmpN : LawfulCmp cmpN := by
  refine ⟨cmpN_eq_iff, cmpN_gt_iff, ?_⟩
  intro a b c hab hbc
  rw [cmpN_lt_iff] at *
  omega

theorem LawfulCmp.prod {α β : Type} {ca : α → α → Ordering} {cb : β → β → Ordering}
    (ha : LawfulCmp ca) (hb : LawfulCmp cb) : LawfulCmp (prodCmp ca cb) := by
  constructor
  · intro x y
    rw [prodCmp, then_eq_eq, ha.eq_iff, hb.eq_iff, Prod.ext_iff]
  · intro x y
    rw [prodCmp, prodCmp, then_eq_gt, then_eq_lt, ha.gt_iff, ha.eq_iff, hb.gt_iff]
    constructor
    · rintro (h | ⟨h1, h2⟩)
      · exact Or.inl h
      · exact Or.inr ⟨by rw [ha.eq_iff, h1], h2⟩
    · rintro (h | ⟨h1, h2⟩)
      · exact Or.inl h
      · exact Or.inr ⟨(ha.eq_iff y.1 x.1).mp h1 ▸ rfl, h2⟩
  · intro x y z hxy hyz
    rw [prodCmp, then_eq_lt] at *
    rcases hxy with h1 | ⟨h1, h1'⟩ <;> rcases hyz with h2 | ⟨h2, h2'⟩
    · exact Or.inl (ha.lt_trans _ _ _ h1 h2)
    · exact Or.inl ((ha.eq_iff y.1 z.1).mp h2 ▸ h1)
    · exact Or.inl ((ha.eq_iff x.1 y.1).mp h1 ▸ h2)
    · exact Or.inr ⟨(ha.eq_iff x.1 y.1).mp h1 ▸ h2, hb.lt_trans _ _ _ h1' h2'⟩

theorem cmpList_eq_iff : ∀ a b, cmpList a b = Ordering.eq ↔ a = b
  | [], [] => by simp [cmpList]
  | [], _ :: _ => by simp [cmpList]
  | _ :: _, [] => by simp [cmpList]
  | a :: as, b :: bs => by
      simp [cmpList, then_eq_eq, cmpN_eq_iff, cmpList_eq_iff as bs]

theorem cmpList_gt_iff : ∀ a b, cmpList a b = Ordering.gt ↔ cmpList b a = Ordering.lt
  | [], [] => by simp [cmpList]
  | [], _ :: _ => by simp [cmpList]
  | _ :: _, [] => by simp [cmpList]
  | a :: as, b :: bs => by
      rw [cmpList, cmpList, then_eq_gt, then_eq_lt, cmpN_gt_iff,
        cmpList_gt_iff as bs]
      constructor
      · rintro (h | ⟨h1, h2⟩)
        · exact Or.inl h
        · refine Or.inr ⟨?_, h2⟩
          rw [cmpN_eq_iff] at h1 ⊢; omega
      · rintro (h | ⟨h1, h2⟩)
        · exact Or.inl h
        · refine Or.inr ⟨?_, h2⟩
          rw [cmpN_eq_iff] at h1 ⊢; omega

theorem cmpList_lt_trans : ∀ a b c, cmpList a b = Ordering.lt →
    cmpList b c = Ordering.lt → cmpList a c = Ordering.lt
  | [], [], _ => by intro h; cases h
  | [], _ :: _, [] => by intro _ h; cases h
  | [], _ :: _, _ :: _ => by intro _ _; rfl
  | _ :: _, [], _ => by intro h; cases h
  | _ :: _, _ :: _, [] => by intro _ h; cases h
  | a :: as, b :: bs, c :: cs => by
      rw [cmpList, cmpList, cmpList, then_eq_lt, then_eq_lt, then_eq_lt]
      rintro (h1 | ⟨h1, h1'⟩) (h2 | ⟨h2, h2'⟩)
      · exact Or.inl (lawful_cmpN.lt_trans _ _ _ h1 h2)
      · rw [cmpN_eq_iff] at h2; exact Or.inl (h2 ▸ h1)
      · rw [cmpN_eq_iff] at h1; exact Or.inl (h1 ▸ h2)
      · rw [cmpN_eq_iff] at h1
        exact Or.inr ⟨h1 ▸ h2, cmpList_lt_trans as bs cs h1' h2'⟩

theorem lawful_cmpList : LawfulCmp cmpList :=
  ⟨cmpList_eq_iff, cmpList_gt_iff, cmpList_lt_trans⟩

/-- The comparison key type of a parsed version. -/
def VKey : Type := List Nat × (Nat × Nat × Nat) × (Nat × Nat)

/-- Comparator on version keys. -/
def cmpKey : VKey → VKey → Ordering :=
  prodCmp cmpList (prodCmp (prodCmp cmpN (prodCmp cmpN cmpN)) (prodCmp cmpN cmpN))

theorem lawful_cmpKey : LawfulCmp cmpKey :=
  lawful_cmpList.prod
    (((lawful_cmpN.prod (lawful_cmpN.prod lawful_cmpN))).prod
      (lawful_cmpN.prod lawful_cmpN))

/-- Release part of the key: trailing zeros stripped, as `packaging` does. -/
def relKey (l : List Nat) : List Nat :=
  (l.reverse.dropWhile (fun n => n == 0)).reverse

/-- Pre-release part of the key: a dev-only version sorts below every
pre-release, which sorts below the final release. -/
def preKey (v : PyVersion) : Nat × Nat × Nat :=
  match v.pre with
  | some (p, n) => (1, p, n)
  | none => match v.dev with
    | some _ => (0, 0, 0)
    | none => (2, 0, 0)

/-- Dev part of the key: absence of a dev segment sorts above any dev number. -/
def devKey (v : PyVersion) : Nat × Nat :=
  match v.dev with
  | some n => (0, n)
  | none => (1, 0)

/-- Full comparison key of a parsed version. -/
def vkey (v : PyVersion) : VKey := (relKey v.release, preKey v, devKey v)

/-- Comparison of parsed versions (the `<`, `>`, `max` of `packaging`). -/
def cmpVer (a b : PyVersion) : Ordering := cmpKey (vkey a) (vkey b)

/-! ### Python `max` as a left fold -/

/-- Python `max` over `a :: l`: scan left, replace the accumulator exactly
when the new element compares strictly greater (under the key `k`). -/
def pyMaxFold {α κ : Type} (cmp : κ → κ → Ordering) (k : α → κ)
    (l : List α) (a : α) : α :=
  l.foldl (fun acc v => if cmp (k acc) (k v) = Ordering.lt then v else acc) a

theorem pyMaxFold_mem {α κ : Type} (cmp : κ → κ → Ordering) (k : α → κ) :
    ∀ (l : List α) (a : α), pyMaxFold cmp k l a = a ∨ pyMaxFold cmp k l a ∈ l := by
  intro l
  induction l with
  | nil => intro a; exact Or.inl rfl
  | cons b t ih =>
      intro a
      rw [pyMaxFold, List.foldl_cons]
      rcases ih (if cmp (k a) (k b) = Ordering.lt then b else a) with h | h
      · rw [pyMaxFold] at h
        rw [h]
        split
        · exact Or.inr (List.mem_cons_self _ _)
        · exact Or.inl rfl
      · exact Or.inr (List.mem_cons_of_mem _ h)

theorem pyMaxFold_ub {α κ : Type} {cmp : κ → κ → Ordering} (k : α → κ)
    (hl : LawfulCmp cmp) :
    ∀ (l : List α) (a w : α), (w = a ∨ w ∈ l) →
      cmp (k (pyMaxFold cmp k l a)) (k w) ≠ Ordering.lt := by
  intro l
  induction l with
  | nil =>
      rintro a w (rfl | h)
      · rw [pyMaxFold, List.foldl_nil]
        intro h
        rw [(hl.eq_iff (k w) (k w)).mpr rfl] at h
        cases h
      · cases h
  | cons b t ih =>
      intro a w hw
      rw [pyMaxFold, List.foldl_cons]
      by_cases hab : cmp (k a) (k b) = Ordering.lt
      · rw [if_pos hab]
        rcases hw with rfl | hw
        · intro hcon
          have hb := ih b b (Or.inl rfl)
          rw [pyMaxFold] at hb
          exact hb (hl.lt_trans _ _ _ hcon hab)
        · rcases List.mem_cons.mp hw with rfl | hw
          · exact ih w w (Or.inl rfl)
          · exact ih b w (Or.inr hw)
      · rw [if_neg hab]
        rcases hw with rfl | hw
        · exact ih w w (Or.inl rfl)
        · rcases List.mem_cons.mp hw with rfl | hw
          · intro hcon
            have ha := ih a a (Or.inl rfl)
            rw [pyMaxFold] at ha
            cases hx : cmp (k a) (k w) with
            | lt => exact hab hx
            | eq =>
                rw [(hl.eq_iff (k a) (k w)).mp hx] at ha
                exact ha hcon
            | gt =>
                rw [hl.gt_iff] at hx
                exact ha (hl.lt_trans _ _ _ hcon hx)
          · exact ih a w (Or.inr hw)

/-! ### The two `get_latest_stable_version` implementations -/

/-- The pre-release keyword markers of the flat-container variant. -/
def pre_release_markers : List (List Char) :=
  ["-beta".data, "-rc".data, "-preview".data, "-dev".data]

/-- Keyword test `any(pre in v.lower() for pre in [...])` of the
flat-container variant. -/
def hasMarker (v : String) : Bool :=
  pre_release_markers.any (fun m => strContains (pyLower v.data) m)

/-- The stable-version filter loop of the flat-container variant: skip an
element when it carries a keyword marker, fails to parse, or parses as a
pre-release; otherwise keep the parsed version, in order. -/
def stableVersionsOf (versions : List String) : List PyVersion :=
  versions.filterMap (fun v =>
    if hasMarker v then none
    else match version_parse v with
      | none => none
      | some parsed => if parsed.is_prerelease then none else some parsed)

/-- `get_latest_stable_version` of `dependency_visualizer.py`: filter by
keyword markers and `is_prerelease` (parse failures are skipped), fail when
nothing survives, otherwise return `str(max(stable_versions))`. -/
def get_latest_stable_version (versions : List String) : Except String String :=
  match stableVersionsOf versions with
  | [] => Except.error "No stable versions found."
  | p :: rest => Except.ok (str_of_version (pyMaxFold cmpKey vkey rest p))

/-- The list comprehension of `main.py`'s `get_latest_stable_version`:
`[v for v in versions if not version.parse(v).is_prerelease]`.  A parse
failure raises, modelled as an error. -/
def filterStable : List String → Except String (List String)
  | [] => Except.ok []
  | v :: rest =>
      match version_parse v with
      | none => Except.error ("Invalid version: " ++ v)
      | some parsed =>
          match filterStable rest with
          | Except.error e => Except.error e
          | Except.ok r =>
              Except.ok (if parsed.is_prerelease then r else v :: r)

/-- Parsed value of a version string, with an irrelevant default for strings
that do not parse (used only where parsing is known to succeed). -/
def parseD (v : String) : PyVersion :=
  (version_parse v).getD ⟨[], none, none⟩

/-- Sort key used by `max(stable_versions, key=version.parse)` in `main.py`;
the default is irrelevant because the elements already parsed. -/
def mainKey (v : String) : VKey :=
  vkey (parseD v)

/-- `get_latest_stable_version` of `main.py` (registration variant): filter
with `version.parse(v).is_prerelease` (a parse failure propagates), fail when
nothing survives, otherwise return the original string of the maximum under
`key=version.parse`. -/
def get_latest_stable_version_reg (versions : List String) : Except String String :=
  match filterStable versions with
  | Except.error e => Except.error e
  | Except.ok stable_versions =>
      match stable_versions with
      | [] => Except.error "No stable versions found."
      | v :: rest => Except.ok (pyMaxFold cmpKey mainKey rest v)

/-! ### Properties of the version selectors -/

/-- An element is clean when it carries no keyword marker, parses, and is not
a pre-release; these are exactly the elements the flat-container filter
keeps. -/
def cleanB (v : String) : Bool :=
  !hasMarker v &&
    match version_parse v with
    | none => false
    | some p => !p.is_prerelease

/-- Decidable form of the side condition "a marker implies a pre-release (or
unparseable) version". -/
def markerImpliesPre (v : String) : Bool :=
  !hasMarker v ||
    (match version_parse v with
     | none => true
     | some p => p.is_prerelease)

theorem stableVersionsOf_eq (versions : List String) :
    stableVersionsOf versions = (versions.filter cleanB).map parseD := by
  induction versions with
  | nil => rfl
  | cons v t ih =>
      rw [stableVersionsOf] at ih ⊢
      rw [List.filterMap_cons, List.filter_cons]
      cases hm : hasMarker v with
      | true => simp [cleanB, hm, ih]
      | false =>
          cases hp : version_parse v with
          | none => simp [cleanB, hm, hp, ih]
          | some p =>
              cases hpre : p.is_prerelease with
              | true => simp [cleanB, hm, hp, hpre, ih]
              | false => simp [cleanB, parseD, hm, hp, hpre, ih]

theorem filterStable_eq (versions : List String)
    (hall : ∀ v ∈ versions, (version_parse v).isSome = true)
    (hmk : ∀ v ∈ versions, markerImpliesPre v = true) :
    filterStable versions = Except.ok (versions.filter cleanB) := by
  induction versions with
  | nil => rfl
  | cons v t ih =>
      have hv := hall v (List.mem_cons_self v t)
      cases hp : version_parse v with
      | none => rw [hp] at hv; cases hv
      | some p =>
          rw [filterStable, hp,
            ih (fun w hw => hall w (List.mem_cons_of_mem v hw))
              (fun w hw => hmk w (List.mem_cons_of_mem v hw)),
            List.filter_cons]
          cases hpre : p.is_prerelease with
          | true =>
              have hcl : cleanB v = false := by
                simp [cleanB, hp, hpre]
              rw [hcl]
              simp [hpre]
          | false =>
              have hnm : hasMarker v = false := by
                cases hm : hasMarker v
                · rfl
                · have h := hmk v (List.mem_cons_self v t)
                  rw [markerImpliesPre, hm, hp] at h
                  simp at h
                  rw [h] at hpre
                  cases hpre
              have hcl : cleanB v = true := by
                simp [cleanB, hp, hnm, hpre]
              rw [hcl]
              simp [hpre]

theorem pyMaxFold_map {α β κ : Type} (cmp : κ → κ → Ordering) (k : β → κ)
    (f : α → β) :
    ∀ (l : List α) (a : α),
      pyMaxFold cmp k (l.map f) (f a) =
        f (pyMaxFold cmp (fun x => k (f x)) l a) := by
  intro l
  induction l with
  | nil => intro a; rfl
  | cons b t ih =>
      intro a
      simp only [List.map_cons, pyMaxFold, List.foldl_cons] at ih ⊢
      rw [← apply_ite f]
      exact ih _

theorem stableVersionsOf_nil_iff (versions : List String) :
    stableVersionsOf versions = [] ↔ ∀ v ∈ versions, cleanB v = false := by
  rw [stableVersionsOf_eq]
  constructor
  · intro h v hv
    cases hcl : cleanB v with
    | false => rfl
    | true =>
        have hmem : v ∈ versions.filter cleanB := List.mem_filter.mpr ⟨hv, hcl⟩
        rw [List.map_eq_nil_iff] at h
        rw [h] at hmem
        cases hmem
  · intro h
    have : versions.filter cleanB = [] := by
      rw [List.filter_eq_nil_iff]
      intro v hv
      rw [h v hv]
      simp
    rw [this, List.map_nil]

/-- C4: for every version list whose elements all parse, whose keyword-marked
elements are pre-releases, and which contains at least one clean (unmarked,
parseable, stable) element, both variants of `get_latest_stable_version`
return the maximum clean version under semantic-version ordering and never a
marked or pre-release one: there is a clean element `v` of the list that no
clean element exceeds, the flat-container variant returns `str(parse v)` and
the registration variant returns `v` itself; in particular on the seven
element mixed list both return `"3.1.0"`. -/
theorem c4_latest_stable_is_max_clean (versions : List String)
    (hall : ∀ v ∈ versions, (version_parse v).isSome = true)
    (hmk : ∀ v ∈ versions, markerImpliesPre v = true)
    (hclean : ∃ v ∈ versions, cleanB v = true) :
    (∃ v ∈ versions, cleanB v = true ∧
      get_latest_stable_version versions =
        Except.ok (str_of_version (parseD v)) ∧
      get_latest_stable_version_reg versions = Except.ok v ∧
      ∀ w ∈ versions, cleanB w = true →
        cmpKey (mainKey w) (mainKey v) ≠ Ordering.gt) ∧
    get_latest_stable_version
      ["1.0.0", "1.1.0-beta", "1.2.0", "2.0.0-rc1", "2.1.0", "3.0.0-dev", "3.1.0"]
      = Except.ok "3.1.0" ∧
    get_latest_stable_version_reg
      ["1.0.0", "1.1.0-beta", "1.2.0", "2.0.0-rc1", "2.1.0", "3.0.0-dev", "3.1.0"]
      = Except.ok "3.1.0" := by
  refine ⟨?_, by decide, by decide⟩
  obtain ⟨v0, hv0mem, hv0⟩ := hclean
  have hv0f : v0 ∈ versions.filter cleanB := List.mem_filter.mpr ⟨hv0mem, hv0⟩
  cases hfe : versions.filter cleanB with
  | nil => rw [hfe] at hv0f; cases hv0f
  | cons p0 rest =>
      have hmain : (fun x => vkey (parseD x)) = mainKey := rfl
      have hmemf : pyMaxFold cmpKey mainKey rest p0 ∈ versions.filter cleanB := by
        rw [hfe]
        rcases pyMaxFold_mem cmpKey mainKey rest p0 with h | h
        · rw [h]; exact List.mem_cons_self _ _
        · exact List.mem_cons_of_mem _ h
      have hmem' := List.mem_filter.mp hmemf
      refine ⟨pyMaxFold cmpKey mainKey rest p0, hmem'.1, hmem'.2, ?_, ?_, ?_⟩
      · simp only [get_latest_stable_version, stableVersionsOf_eq, hfe,
          List.map_cons]
        rw [pyMaxFold_map cmpKey vkey parseD rest p0, hmain]
      · simp only [get_latest_stable_version_reg,
          filterStable_eq versions hall hmk, hfe]
      · intro w hw hwc
        have hwf : w ∈ versions.filter cleanB := List.mem_filter.mpr ⟨hw, hwc⟩
        rw [hfe] at hwf
        have hub : cmpKey (mainKey (pyMaxFold cmpKey mainKey rest p0))
            (mainKey w) ≠ Ordering.lt := by
          rcases List.mem_cons.mp hwf with rfl | hwr
          · exact pyMaxFold_ub mainKey lawful_cmpKey rest w w (Or.inl rfl)
          · exact pyMaxFold_ub mainKey lawful_cmpKey rest p0 w (Or.inr hwr)
        intro hgt
        exact hub ((lawful_cmpKey.gt_iff (mainKey w)
          (mainKey (pyMaxFold cmpKey mainKey rest p0))).mp hgt)

/-- Witness for C4 at the spec's seven-element list. -/
theorem c4_latest_stable_is_max_clean_witness :
    (∃ v ∈ ["1.0.0", "1.1.0-beta", "1.2.0", "2.0.0-rc1", "2.1.0", "3.0.0-dev",
        "3.1.0"], cleanB v = true ∧
      get_latest_stable_version
        ["1.0.0", "1.1.0-beta", "1.2.0", "2.0.0-rc1", "2.1.0", "3.0.0-dev", "3.1.0"] =
        Except.ok (str_of_version (parseD v)) ∧
      get_latest_stable_version_reg
        ["1.0.0", "1.1.0-beta", "1.2.0", "2.0.0-rc1", "2.1.0", "3.0.0-dev", "3.1.0"]
        = Except.ok v ∧
      ∀ w ∈ ["1.0.0", "1.1.0-beta", "1.2.0", "2.0.0-rc1", "2.1.0", "3.0.0-dev",
        "3.1.0"], cleanB w = true →
        cmpKey (mainKey w) (mainKey v) ≠ Ordering.gt) ∧
    get_latest_stable_version
      ["1.0.0", "1.1.0-beta", "1.2.0", "2.0.0-rc1", "2.1.0", "3.0.0-dev", "3.1.0"]
      = Except.ok "3.1.0" ∧
    get_latest_stable_version_reg
      ["1.0.0", "1.1.0-beta", "1.2.0", "2.0.0-rc1", "2.1.0", "3.0.0-dev", "3.1.0"]
      = Except.ok "3.1.0" :=
  c4_latest_stable_is_max_clean _ (by decide) (by decide)
    ⟨"1.0.0", by decide, by decide⟩

/-- C5 counterexample: `["banana", "1.0.0"]` contains the parseable stable
version `"1.0.0"`, yet `main.py`'s `get_latest_stable_version` fails — and
not with the no-stable-version error — because the unparseable element raises
instead of being skipped. -/
theorem c5_unparseable_raises_in_reg_variant :
    get_latest_stable_version_reg ["banana", "1.0.0"] =
      Except.error "Invalid version: banana" ∧
    version_parse "1.0.0" = some ⟨[1, 0, 0], none, none⟩ ∧
    PyVersion.is_prerelease ⟨[1, 0, 0], none, none⟩ = false ∧
    get_latest_stable_version_reg ["banana", "1.0.0"] ≠
      Except.error "No stable versions found." := by
  refine ⟨by decide, by decide, by decide, by decide⟩

/-- C5 amended: in the flat-container variant the claim holds — the function
fails exactly with the no-stable-version error, and it does so if and only if
no element parses as a stable version (unparseable elements are skipped, and
keyword-marked elements are assumed to parse as pre-releases); its only
possible error is the no-stable-version one.  In the registration variant an
unparseable element instead raises a parse error (see the counterexample). -/
theorem c5_no_stable_iff_flat (versions : List String)
    (hmk : ∀ v ∈ versions, markerImpliesPre v = true) :
    (get_latest_stable_version versions = Except.error "No stable versions found." ↔
      ∀ v ∈ versions, ∀ p, version_parse v = some p → p.is_prerelease = true) ∧
    (∀ e, get_latest_stable_version versions = Except.error e →
      e = "No stable versions found.") := by
  cases hfe : stableVersionsOf versions with
  | nil =>
      constructor
      · constructor
        · intro _ v hv p hp
          have hcl := (stableVersionsOf_nil_iff versions).mp hfe v hv
          simp only [cleanB, hp] at hcl
          cases hm : hasMarker v with
          | true =>
              have h := hmk v hv
              rw [markerImpliesPre, hm, hp] at h
              simpa using h
          | false =>
              rw [hm] at hcl
              simpa using hcl
        · intro _
          simp only [get_latest_stable_version, hfe]
      · intro e he
        simp only [get_latest_stable_version, hfe] at he
        injection he with h
        exact h.symm
  | cons p0 rest =>
      constructor
      · constructor
        · intro h
          simp [get_latest_stable_version, hfe] at h
        · intro hall
          have hp0 : p0 ∈ stableVersionsOf versions := by
            rw [hfe]; exact List.mem_cons_self _ _
          rw [stableVersionsOf_eq] at hp0
          obtain ⟨v, hvf, hveq⟩ := List.mem_map.mp hp0
          have hv := List.mem_filter.mp hvf
          have hcl := hv.2
          cases hp : version_parse v with
          | none =>
              simp only [cleanB, hp] at hcl
              simp at hcl
          | some p =>
              have hpre := hall v hv.1 p hp
              simp only [cleanB, hp, hpre] at hcl
              simp at hcl
      · intro e he
        simp [get_latest_stable_version, hfe] at he

/-- Witness for the amended C5 on a list with an unparseable element and a
stable element: the flat-container variant succeeds (the error equation is
false on both sides of the iff). -/
theorem c5_no_stable_iff_flat_witness :
    ((get_latest_stable_version ["banana", "1.0.0"] =
        Except.error "No stable versions found." ↔
      ∀ v ∈ ["banana", "1.0.0"], ∀ p, version_parse v = some p →
        p.is_prerelease = true) ∧
    (∀ e, get_latest_stable_version ["banana", "1.0.0"] = Except.error e →
      e = "No stable versions found.")) :=
  c5_no_stable_iff_flat ["banana", "1.0.0"] (by decide)

/-! ### The graph builder

`build_dependency_graph` is textually identical in both variants except for
the helpers it calls.  We parameterise it by the four resolution steps
(version listing, stable-version selection, archive download, manifest
parsing), each of which may fail with an arbitrary error, exactly the shape
of the `try` block in the source. -/

/-- The four resolution steps driven by `build_dependency_graph`.  `α` is the
type of downloaded archives. -/
structure Registry (α : Type) where
  get_all_versions : String → Except String (List String)
  get_latest_stable_version : List String → Except String String
  download_nupkg : String → String → Except String α
  extract_dependencies : α → Except String (List String)

/-- The body of the `try` block: list versions, select the latest stable one,
download the archive, extract the dependencies; the first failure aborts the
whole block (Python exception propagation inside `try`). -/
def resolve_package {α : Type} (reg : Registry α) (package_name : String) :
    Except String (List String) :=
  match reg.get_all_versions package_name with
  | Except.error e => Except.error e
  | Except.ok versions =>
      match reg.get_latest_stable_version versions with
      | Except.error e => Except.error e
      | Except.ok latest_version =>
          match reg.download_nupkg package_name latest_version with
          | Except.error e => Except.error e
          | Except.ok nupkg_stream => reg.extract_dependencies nupkg_stream

/-- The dependency graph: a Python dict in insertion order, mapping a package
name to its recorded dependency list. -/
abbrev DepGraph := List (String × List String)

/-- Fuel-indexed core of `build_dependency_graph`.  The fuel is always
`max_depth + 1 - current_depth` (the number of frames the recursion can still
open before its depth test fires), so the fuel-zero branch coincides with the
`current_depth > max_depth` test; `build_dependency_graph_eq` below proves
the wrapper satisfies the source's recurrence exactly. -/
def bdgF {α : Type} (reg : Registry α) (repository_url : String)
    (max_depth : Nat) :
    Nat → String → Nat → DepGraph → List String → DepGraph × List String
  | 0, _, _, graph, visited => (graph, visited)
  | fuel + 1, package_name, current_depth, graph, visited =>
      if current_depth > max_depth then (graph, visited)
      else if pyLowerS package_name ∈ visited then (graph, visited)
      else
        let visited1 := pyLowerS package_name :: visited
        match resolve_package reg package_name with
        | Except.error _ => (graph, visited1)
        | Except.ok dependencies =>
            dependencies.foldl
              (fun s dep =>
                bdgF reg repository_url max_depth fuel dep (current_depth + 1)
                  s.1 s.2)
              (graph ++ [(package_name, dependencies)], visited1)

/-- `build_dependency_graph(package_name, repository_url, max_depth,
current_depth, graph, visited)` of both variants: base cases on the depth
bound and the visited set, mark visited, resolve the package through the four
steps, record its dependency list, recurse into each dependency at
`current_depth + 1`; any resolution failure is caught and leaves the graph
unchanged.  The `repository_url` is passed along exactly as in the source
(the registry closes over it where a variant uses it). -/
def build_dependency_graph {α : Type} (reg : Registry α)
    (package_name repository_url : String) (max_depth current_depth : Nat)
    (graph : DepGraph) (visited : List String) : DepGraph × List String :=
  bdgF reg repository_url max_depth (max_depth + 1 - current_depth)
    package_name current_depth graph visited

/-- The loop `for dep in dependencies: build_dependency_graph(dep, ...)`
threading the shared graph and visited set. -/
def build_deps_loop {α : Type} (reg : Registry α) (dependencies : List String)
    (repository_url : String) (max_depth current_depth : Nat)
    (graph : DepGraph) (visited : List String) : DepGraph × List String :=
  dependencies.foldl
    (fun s dep =>
      build_dependency_graph reg dep repository_url max_depth current_depth
        s.1 s.2)
    (graph, visited)

/-- The top-level call, with the default arguments `current_depth=0`,
`graph={}`, `visited=set()`; it returns the graph. -/
def buildGraph {α : Type} (reg : Registry α)
    (package_name repository_url : String) (max_depth : Nat) : DepGraph :=
  (build_dependency_graph reg package_name repository_url max_depth 0 [] []).1

/-- The wrapper satisfies the recurrence of the Python source verbatim:
depth test, visited test, mark visited, resolve, on failure return the graph
unchanged, on success record the dependency list and loop over the
dependencies one level deeper. -/
theorem build_dependency_graph_eq {α : Type} (reg : Registry α)
    (package_name repository_url : String) (max_depth current_depth : Nat)
    (graph : DepGraph) (visited : List String) :
    build_dependency_graph reg package_name repository_url max_depth
        current_depth graph visited =
      if current_depth > max_depth then (graph, visited)
      else if pyLowerS package_name ∈ visited then (graph, visited)
      else
        match resolve_package reg package_name with
        | Except.error _ => (graph, pyLowerS package_name :: visited)
        | Except.ok dependencies =>
            build_deps_loop reg dependencies repository_url max_depth
              (current_depth + 1) (graph ++ [(package_name, dependencies)])
              (pyLowerS package_name :: visited) := by
  by_cases h : current_depth > max_depth
  · have hf : max_depth + 1 - current_depth = 0 := by omega
    rw [build_dependency_graph, hf, if_pos h]
    rfl
  · have hf : max_depth + 1 - current_depth = (max_depth - current_depth) + 1 := by
      omega
    have hf2 : max_depth + 1 - (current_depth + 1) = max_depth - current_depth :=
      Nat.succ_sub_succ _ _
    rw [build_dependency_graph, hf]
    simp only [bdgF, if_neg h]
    cases hres : resolve_package reg package_name with
    | error e => rfl
    | ok dependencies =>
        simp only [build_deps_loop, build_dependency_graph, hf2]

/-- Monotonicity invariant of the fold over a dependency list: the graph only
grows by entries whose lowered name was not yet visited, and the visited set
only grows. -/
theorem bdgFold_mono {α : Type} (reg : Registry α) (repository_url : String)
    (max_depth fuel depth : Nat)
    (IH : ∀ pkg d g vis,
      (∃ ext, (bdgF reg repository_url max_depth fuel pkg d g vis).1 = g ++ ext ∧
        ∀ p ∈ ext, pyLowerS p.1 ∉ vis) ∧
      vis ⊆ (bdgF reg repository_url max_depth fuel pkg d g vis).2) :
    ∀ (deps : List String) (g : DepGraph) (vis : List String),
      (∃ ext,
        (deps.foldl
          (fun s dep =>
            bdgF reg repository_url max_depth fuel dep depth s.1 s.2)
          (g, vis)).1 = g ++ ext ∧
        ∀ p ∈ ext, pyLowerS p.1 ∉ vis) ∧
      vis ⊆ (deps.foldl
        (fun s dep => bdgF reg repository_url max_depth fuel dep depth s.1 s.2)
        (g, vis)).2 := by
  intro deps
  induction deps with
  | nil =>
      intro g vis
      exact ⟨⟨[], by simp, by intro p hp; cases hp⟩, fun x hx => hx⟩
  | cons d ds ih =>
      intro g vis
      rw [List.foldl_cons]
      obtain ⟨⟨ext1, hg1, hk1⟩, hv1⟩ := IH d depth g vis
      obtain ⟨⟨ext2, hg2, hk2⟩, hv2⟩ :=
        ih (bdgF reg repository_url max_depth fuel d depth g vis).1
          (bdgF reg repository_url max_depth fuel d depth g vis).2
      constructor
      · refine ⟨ext1 ++ ext2, ?_, ?_⟩
        · rw [hg2, hg1, List.append_assoc]
        · intro p hp
          rcases List.mem_append.mp hp with hp | hp
          · exact hk1 p hp
          · intro hmem
            exact hk2 p hp (hv1 hmem)
      · exact fun x hx => hv2 (hv1 hx)

/-- Monotonicity invariant of the builder core. -/
theorem bdgF_mono {α : Type} (reg : Registry α) (repository_url : String)
    (max_depth : Nat) :
    ∀ (fuel : Nat) (pkg : String) (depth : Nat) (g : DepGraph)
      (vis : List String),
      (∃ ext, (bdgF reg repository_url max_depth fuel pkg depth g vis).1 =
          g ++ ext ∧
        ∀ p ∈ ext, pyLowerS p.1 ∉ vis) ∧
      vis ⊆ (bdgF reg repository_url max_depth fuel pkg depth g vis).2 := by
  intro fuel
  induction fuel with
  | zero =>
      intro pkg depth g vis
      exact ⟨⟨[], by simp [bdgF], by intro p hp; cases hp⟩, fun x hx => hx⟩
  | succ fuel ih =>
      intro pkg depth g vis
      by_cases hd : depth > max_depth
      · rw [bdgF, if_pos hd]
        exact ⟨⟨[], by simp, by intro p hp; cases hp⟩, fun x hx => hx⟩
      · by_cases hv : pyLowerS pkg ∈ vis
        · rw [bdgF, if_neg hd, if_pos hv]
          exact ⟨⟨[], by simp, by intro p hp; cases hp⟩, fun x hx => hx⟩
        · rw [bdgF, if_neg hd, if_neg hv]
          cases hres : resolve_package reg pkg with
          | error e =>
              exact ⟨⟨[], by simp, by intro p hp; cases hp⟩,
                fun x hx => List.mem_cons_of_mem _ hx⟩
          | ok dependencies =>
              obtain ⟨⟨ext2, hg2, hk2⟩, hv2⟩ :=
                bdgFold_mono reg repository_url max_depth fuel (depth + 1) ih
                  dependencies (g ++ [(pkg, dependencies)])
                  (pyLowerS pkg :: vis)
              constructor
              · refine ⟨(pkg, dependencies) :: ext2, ?_, ?_⟩
                · rw [hg2, List.append_assoc]
                  rfl
                · intro p hp
                  rcases List.mem_cons.mp hp with rfl | hp
                  · exact hv
                  · intro hmem
                    exact hk2 p hp (List.mem_cons_of_mem _ hmem)
              · exact fun x hx => hv2 (List.mem_cons_of_mem _ hx)

/-- Monotonicity of the wrapper. -/
theorem build_mono {α : Type} (reg : Registry α)
    (pkg repository_url : String) (max_depth depth : Nat) (g : DepGraph)
    (vis : List String) :
    (∃ ext,
      (build_dependency_graph reg pkg repository_url max_depth depth g vis).1 =
        g ++ ext ∧ ∀ p ∈ ext, pyLowerS p.1 ∉ vis) ∧
    vis ⊆ (build_dependency_graph reg pkg repository_url max_depth depth g
      vis).2 :=
  bdgF_mono reg repository_url max_depth _ pkg depth g vis

/-- Monotonicity of the dependency loop. -/
theorem build_deps_loop_mono {α : Type} (reg : Registry α)
    (deps : List String) (repository_url : String) (max_depth depth : Nat)
    (g : DepGraph) (vis : List String) :
    (∃ ext,
      (build_deps_loop reg deps repository_url max_depth depth g vis).1 =
        g ++ ext ∧ ∀ p ∈ ext, pyLowerS p.1 ∉ vis) ∧
    vis ⊆ (build_deps_loop reg deps repository_url max_depth depth g vis).2 :=
  bdgFold_mono reg repository_url max_depth (max_depth + 1 - depth) depth
    (fun pkg d g' vis' => bdgF_mono reg repository_url max_depth _ pkg d g' vis')
    deps g vis

/-- Beyond the depth bound the dependency loop is the identity: every
recursive call returns before modifying the state. -/
theorem build_deps_loop_beyond {α : Type} (reg : Registry α)
    (repository_url : String) (max_depth depth : Nat) (h : depth > max_depth) :
    ∀ (deps : List String) (g : DepGraph) (vis : List String),
      build_deps_loop reg deps repository_url max_depth depth g vis = (g, vis) := by
  intro deps
  induction deps with
  | nil => intro g vis; rfl
  | cons d ds ih =>
      intro g vis
      have h1 : build_dependency_graph reg d repository_url max_depth depth
          g vis = (g, vis) := by
        rw [build_dependency_graph_eq, if_pos h]
      simp only [build_deps_loop, List.foldl_cons]
      rw [h1]
      exact ih g vis

/-- A registry in which every resolution step fails. -/
def failReg : Registry Unit :=
  { get_all_versions := fun _ => Except.error "registry down"
    get_latest_stable_version := fun _ => Except.error "no stable"
    download_nupkg := fun _ _ => Except.error "not found"
    extract_dependencies := fun _ => Except.error "no nuspec" }

/-- C1: for every registry behaviour (each of the four steps may fail with
any error), `build_dependency_graph` is total and isolates failures:
(1) if the root fails to resolve the returned graph is empty; (2) a call on a
failing unvisited package within the depth bound returns the graph unchanged
and only marks the package visited — in particular the parent's
already-recorded dependency list, which names the failed package, is intact;
(3) in a dependency loop a failing package is skipped and the loop continues
with the remaining siblings; (4) and (5) a package that is visited but
recorded by no graph entry — the state a failure leaves it in — never becomes
a key later, whether the traversal continues in a recursive call or in a
sibling loop; (6) every already-recorded entry is preserved: the resulting
graph extends the given one. -/
theorem c1_partial_failure_isolation :
    (∀ (α : Type) (reg : Registry α) (root repository_url : String)
        (max_depth : Nat) (e : String),
      resolve_package reg root = Except.error e →
      buildGraph reg root repository_url max_depth = []) ∧
    (∀ (α : Type) (reg : Registry α) (pkg repository_url : String)
        (max_depth depth : Nat) (g : DepGraph) (vis : List String) (e : String),
      depth ≤ max_depth → pyLowerS pkg ∉ vis →
      resolve_package reg pkg = Except.error e →
      build_dependency_graph reg pkg repository_url max_depth depth g vis =
        (g, pyLowerS pkg :: vis)) ∧
    (∀ (α : Type) (reg : Registry α) (pkg repository_url : String)
        (rest : List String) (max_depth depth : Nat) (g : DepGraph)
        (vis : List String) (e : String),
      depth ≤ max_depth → pyLowerS pkg ∉ vis →
      resolve_package reg pkg = Except.error e →
      build_deps_loop reg (pkg :: rest) repository_url max_depth depth g vis =
        build_deps_loop reg rest repository_url max_depth depth g
          (pyLowerS pkg :: vis)) ∧
    (∀ (α : Type) (reg : Registry α) (pkg name repository_url : String)
        (max_depth depth : Nat) (g : DepGraph) (vis : List String),
      pyLowerS name ∈ vis → (∀ d, (name, d) ∉ g) →
      ∀ d, (name, d) ∉
        (build_dependency_graph reg pkg repository_url max_depth depth g
          vis).1) ∧
    (∀ (α : Type) (reg : Registry α) (deps : List String)
        (name repository_url : String) (max_depth depth : Nat) (g : DepGraph)
        (vis : List String),
      pyLowerS name ∈ vis → (∀ d, (name, d) ∉ g) →
      ∀ d, (name, d) ∉
        (build_deps_loop reg deps repository_url max_depth depth g vis).1) ∧
    (∀ (α : Type) (reg : Registry α) (pkg repository_url : String)
        (max_depth depth : Nat) (g : DepGraph) (vis : List String),
      ∃ ext, (build_dependency_graph reg pkg repository_url max_depth depth g
        vis).1 = g ++ ext) := by
  have hfail : ∀ (α : Type) (reg : Registry α) (pkg repository_url : String)
      (max_depth depth : Nat) (g : DepGraph) (vis : List String) (e : String),
      depth ≤ max_depth → pyLowerS pkg ∉ vis →
      resolve_package reg pkg = Except.error e →
      build_dependency_graph reg pkg repository_url max_depth depth g vis =
        (g, pyLowerS pkg :: vis) := by
    intro α reg pkg u max_depth depth g vis e hd hv hres
    rw [build_dependency_graph_eq, if_neg (by omega), if_neg hv, hres]
  refine ⟨?_, hfail, ?_, ?_, ?_, ?_⟩
  · intro α reg root u max_depth e hres
    rw [buildGraph, hfail α reg root u max_depth 0 [] [] e (by omega)
      (by simp) hres]
  · intro α reg pkg u rest max_depth depth g vis e hd hv hres
    simp only [build_deps_loop, List.foldl_cons]
    rw [hfail α reg pkg u max_depth depth g vis e hd hv hres]
  · intro α reg pkg name u max_depth depth g vis hvis hng d hmem
    obtain ⟨⟨ext, hg, hk⟩, _⟩ := build_mono reg pkg u max_depth depth g vis
    rw [hg] at hmem
    rcases List.mem_append.mp hmem with hmem | hmem
    · exact hng d hmem
    · exact hk (name, d) hmem hvis
  · intro α reg deps name u max_depth depth g vis hvis hng d hmem
    obtain ⟨⟨ext, hg, hk⟩, _⟩ :=
      build_deps_loop_mono reg deps u max_depth depth g vis
    rw [hg] at hmem
    rcases List.mem_append.mp hmem with hmem | hmem
    · exact hng d hmem
    · exact hk (name, d) hmem hvis
  · intro α reg pkg u max_depth depth g vis
    obtain ⟨⟨ext, hg, _⟩, _⟩ := build_mono reg pkg u max_depth depth g vis
    exact ⟨ext, hg⟩

/-- Witness for C1 with the all-failing registry: the root call returns the
empty graph; a failing dependency call leaves the parent's entry (which names
`DepB`) unchanged and only marks `depb` visited; the sibling loop continues
past the failure; the failed package never appears as a key; the graph is
extended. -/
theorem c1_partial_failure_isolation_witness :
    buildGraph failReg "Root" "https://api.nuget.org/v3" 3 = [] ∧
    build_dependency_graph failReg "DepB" "u" 3 1
        [("Parent", ["DepB", "DepC"])] ["parent"] =
      ([("Parent", ["DepB", "DepC"])], [pyLowerS "DepB", "parent"]) ∧
    build_deps_loop failReg ["DepB", "DepC"] "u" 3 1
        [("Parent", ["DepB", "DepC"])] ["parent"] =
      build_deps_loop failReg ["DepC"] "u" 3 1 [("Parent", ["DepB", "DepC"])]
        [pyLowerS "DepB", "parent"] ∧
    ("DepB", ["X"]) ∉
      (build_dependency_graph failReg "DepC" "u" 3 1
        [("Parent", ["DepB", "DepC"])] ["depb", "parent"]).1 ∧
    ("DepB", ["X"]) ∉
      (build_deps_loop failReg ["DepC"] "u" 3 1 [("Parent", ["DepB", "DepC"])]
        ["depb", "parent"]).1 ∧
    (∃ ext, (build_dependency_graph failReg "DepC" "u" 3 1
      [("Parent", ["DepB", "DepC"])] ["depb", "parent"]).1 =
      [("Parent", ["DepB", "DepC"])] ++ ext) := by
  have hng : ∀ d, ("DepB", d) ∉ [("Parent", ["DepB", "DepC"])] := by
    intro d hd
    have h := List.mem_singleton.mp hd
    have h1 : "DepB" = "Parent" := congrArg Prod.fst h
    exact absurd h1 (by decide)
  refine ⟨c1_partial_failure_isolation.1 Unit failReg "Root"
      "https://api.nuget.org/v3" 3 "registry down" rfl,
    c1_partial_failure_isolation.2.1 Unit failReg "DepB" "u" 3 1
      [("Parent", ["DepB", "DepC"])] ["parent"] "registry down" (by omega)
      (by decide) rfl,
    c1_partial_failure_isolation.2.2.1 Unit failReg "DepB" "u" ["DepC"] 3 1
      [("Parent", ["DepB", "DepC"])] ["parent"] "registry down" (by omega)
      (by decide) rfl,
    c1_partial_failure_isolation.2.2.2.1 Unit failReg "DepC" "DepB" "u" 3 1
      [("Parent", ["DepB", "DepC"])] ["depb", "parent"] (by decide) hng ["X"],
    c1_partial_failure_isolation.2.2.2.2.1 Unit failReg ["DepC"] "DepB" "u" 3 1
      [("Parent", ["DepB", "DepC"])] ["depb", "parent"] (by decide) hng ["X"],
    c1_partial_failure_isolation.2.2.2.2.2 Unit failReg "DepC" "u" 3 1
      [("Parent", ["DepB", "DepC"])] ["depb", "parent"]⟩

/-- A registry realising the two-node cycle A → B → A, with a single stable
version and the real stable-version selector. -/
def cycleReg : Registry String :=
  { get_all_versions := fun _ => Except.ok ["1.0.0"]
    get_latest_stable_version := get_latest_stable_version
    download_nupkg := fun package_name _ => Except.ok package_name
    extract_dependencies := fun a =>
      Except.ok (if a = "A" then ["B"] else if a = "B" then ["A"] else []) }

/-- C2: on the two-node cycle, `build_dependency_graph("A", maxDepth=5)`
terminates with exactly `{A: [B], B: [A]}`; the visited set records each
lowered name exactly once (`["b", "a"]`, so B was resolved once), and in
general a call on an already-visited package returns the graph and visited
set unchanged — packages are marked visited before any resolution work, so
B's recursion into A is a no-op. -/
theorem c2_cycle_termination :
    build_dependency_graph cycleReg "A" "https://api.nuget.org/v3" 5 0 [] [] =
      ([("A", ["B"]), ("B", ["A"])], ["b", "a"]) ∧
    buildGraph cycleReg "A" "https://api.nuget.org/v3" 5 =
      [("A", ["B"]), ("B", ["A"])] ∧
    (∀ (α : Type) (reg : Registry α) (pkg repository_url : String)
        (max_depth depth : Nat) (g : DepGraph) (vis : List String),
      pyLowerS pkg ∈ vis →
      build_dependency_graph reg pkg repository_url max_depth depth g vis =
        (g, vis)) := by
  refine ⟨by decide, by decide, ?_⟩
  intro α reg pkg u max_depth depth g vis hvis
  rw [build_dependency_graph_eq]
  by_cases hd : depth > max_depth
  · rw [if_pos hd]
  · rw [if_neg hd, if_pos hvis]

/-- Witness for C2's general visited-set no-op at a concrete state. -/
theorem c2_cycle_termination_witness :
    build_dependency_graph cycleReg "A" "https://api.nuget.org/v3" 5 2
        [("A", ["B"]), ("B", ["A"])] ["b", "a"] =
      ([("A", ["B"]), ("B", ["A"])], ["b", "a"]) :=
  c2_cycle_termination.2.2 String cycleReg "A" "https://api.nuget.org/v3" 5 2
    [("A", ["B"]), ("B", ["A"])] ["b", "a"] (by decide)

/-- A registry in which every package resolves to the dependency list
`["DepA", "DepB"]`. -/
def leafReg : Registry Unit :=
  { get_all_versions := fun _ => Except.ok ["1.0.0"]
    get_latest_stable_version := get_latest_stable_version
    download_nupkg := fun _ _ => Except.ok ()
    extract_dependencies := fun _ => Except.ok ["DepA", "DepB"] }

/-- C3: (1) with `maxDepth=0` a successfully resolving root produces exactly
the one-entry graph mapping the root to its full declared dependency list, so
no dependency appears as a key; (2) in general a package first reached at
depth exactly `maxDepth` is still fully resolved and recorded (the base-case
test is `current_depth > max_depth`, inclusive of the bound) while its
dependencies are not recursed into; (3) a call at depth `maxDepth + 1` or
beyond returns without modifying the graph or the visited set. -/
theorem c3_depth_bound_inclusive :
    (∀ (α : Type) (reg : Registry α) (root repository_url : String)
        (deps : List String),
      resolve_package reg root = Except.ok deps →
      buildGraph reg root repository_url 0 = [(root, deps)]) ∧
    (∀ (α : Type) (reg : Registry α) (pkg repository_url : String)
        (max_depth : Nat) (g : DepGraph) (vis : List String)
        (deps : List String),
      pyLowerS pkg ∉ vis → resolve_package reg pkg = Except.ok deps →
      build_dependency_graph reg pkg repository_url max_depth max_depth g vis =
        (g ++ [(pkg, deps)], pyLowerS pkg :: vis)) ∧
    (∀ (α : Type) (reg : Registry α) (pkg repository_url : String)
        (max_depth depth : Nat) (g : DepGraph) (vis : List String),
      depth > max_depth →
      build_dependency_graph reg pkg repository_url max_depth depth g vis =
        (g, vis)) := by
  have hbound : ∀ (α : Type) (reg : Registry α) (pkg repository_url : String)
      (max_depth : Nat) (g : DepGraph) (vis : List String)
      (deps : List String),
      pyLowerS pkg ∉ vis → resolve_package reg pkg = Except.ok deps →
      build_dependency_graph reg pkg repository_url max_depth max_depth g vis =
        (g ++ [(pkg, deps)], pyLowerS pkg :: vis) := by
    intro α reg pkg u max_depth g vis deps hv hres
    rw [build_dependency_graph_eq, if_neg (by omega), if_neg hv, hres]
    exact build_deps_loop_beyond reg u max_depth (max_depth + 1) (by omega)
      deps (g ++ [(pkg, deps)]) (pyLowerS pkg :: vis)
  refine ⟨?_, hbound, ?_⟩
  · intro α reg root u deps hres
    rw [buildGraph, hbound α reg root u 0 [] [] deps (by simp) hres]
    simp
  · intro α reg pkg u max_depth depth g vis hd
    rw [build_dependency_graph_eq, if_pos hd]

/-- Witness for C3: with the concrete `leafReg`, `maxDepth=0` yields exactly
the root entry; a node first reached at the bound is recorded; a call beyond
the bound changes nothing. -/
theorem c3_depth_bound_inclusive_witness :
    buildGraph leafReg "A" "https://api.nuget.org/v3" 0 =
      [("A", ["DepA", "DepB"])] ∧
    build_dependency_graph leafReg "DepA" "u" 2 2 [("A", ["DepA"])] ["a"] =
      ([("A", ["DepA"]), ("DepA", ["DepA", "DepB"])],
        [pyLowerS "DepA", "a"]) ∧
    build_dependency_graph leafReg "DepA" "u" 2 3 [("A", ["DepA"])] ["a"] =
      ([("A", ["DepA"])], ["a"]) :=
  ⟨c3_depth_bound_inclusive.1 Unit leafReg "A" "https://api.nuget.org/v3"
      ["DepA", "DepB"] (by decide),
    c3_depth_bound_inclusive.2.1 Unit leafReg "DepA" "u" 2 [("A", ["DepA"])]
      ["a"] ["DepA", "DepB"] (by decide) (by decide),
    c3_depth_bound_inclusive.2.2 Unit leafReg "DepA" "u" 2 3 [("A", ["DepA"])]
      ["a"] (by omega)⟩

/-! ### The flat-container HTTP layer (C10)

The flat-container variant builds every request URL from the hard-coded host
`https://api.nuget.org`; the `repository_url` argument is carried through the
recursion but never used.  HTTP transport and JSON-body parsing are modelled
as oracles. -/

/-- An HTTP response: status code and body. -/
structure HttpResp where
  status : Nat
  body : String

/-- `get_flatcontainer_index_url`: the version-index URL, built from the
hard-coded host and the lower-cased package name. -/
def get_flatcontainer_index_url (package_name : String) : String :=
  "https://api.nuget.org/v3-flatcontainer/" ++ pyLowerS package_name ++
    "/index.json"

/-- `get_download_url` of the flat-container variant: the archive URL, built
from the hard-coded host, the lower-cased package name and the version. -/
def get_download_url (package_name version : String) : String :=
  "https://api.nuget.org/v3-flatcontainer/" ++ pyLowerS package_name ++ "/" ++
    version ++ "/" ++ pyLowerS package_name ++ "." ++ version ++ ".nupkg"

/-- `get_all_versions_flatcontainer`: fetch the index URL; a non-200 status,
an unparseable JSON body (the `json_versions` oracle), or an empty version
list each fail with the corresponding error. -/
def get_all_versions_flatcontainer (http : String → Except String HttpResp)
    (json_versions : String → Option (List String)) (package_name : String) :
    Except String (List String) :=
  match http (get_flatcontainer_index_url package_name) with
  | Except.error e => Except.error e
  | Except.ok response =>
      if response.status ≠ 200 then
        Except.error ("Failed to fetch versions for package " ++ package_name)
      else
        match json_versions response.body with
        | none =>
            Except.error ("Invalid JSON response for package " ++ package_name)
        | some versions =>
            if versions.isEmpty then
              Except.error ("No versions found for package " ++ package_name)
            else Except.ok versions

/-- `download_nupkg` of the flat-container variant: fetch the download URL;
only a 200 status yields the archive bytes. -/
def download_nupkg (http : String → Except String HttpResp)
    (package_name version : String) : Except String String :=
  match http (get_download_url package_name version) with
  | Except.error e => Except.error e
  | Except.ok response =>
      if response.status = 200 then Except.ok response.body
      else
        Except.error ("Package " ++ package_name ++ " version " ++ version ++
          " not found")

/-- The flat-container variant's four resolution steps, assembled from the
HTTP oracle, the JSON oracle, the real stable-version selector, and an
archive-extraction oracle.  No `repository_url` enters the construction. -/
def flatRegistry (http : String → Except String HttpResp)
    (json_versions : String → Option (List String))
    (extract : String → Except String (List String)) : Registry String :=
  { get_all_versions := get_all_versions_flatcontainer http json_versions
    get_latest_stable_version := get_latest_stable_version
    download_nupkg := download_nupkg http
    extract_dependencies := extract }

/-- The builder core never reads the `repository_url` it threads along. -/
theorem bdgF_url_irrel {α : Type} (reg : Registry α) (u1 u2 : String)
    (max_depth : Nat) :
    ∀ (fuel : Nat) (pkg : String) (depth : Nat) (g : DepGraph)
      (vis : List String),
      bdgF reg u1 max_depth fuel pkg depth g vis =
        bdgF reg u2 max_depth fuel pkg depth g vis := by
  intro fuel
  induction fuel with
  | zero => intro pkg depth g vis; rfl
  | succ fuel ih =>
      intro pkg depth g vis
      by_cases hd : depth > max_depth
      · rw [bdgF, if_pos hd, bdgF, if_pos hd]
      · by_cases hv : pyLowerS pkg ∈ vis
        · rw [bdgF, if_neg hd, if_pos hv, bdgF, if_neg hd, if_pos hv]
        · rw [bdgF, if_neg hd, if_neg hv, bdgF, if_neg hd, if_neg hv]
          cases hres : resolve_package reg pkg with
          | error e => rfl
          | ok dependencies =>
              exact List.foldl_ext _ _ _
                (fun s dep _ => ih dep (depth + 1) s.1 s.2)

/-- C10: in the flat-container variant the `repository_url` argument has no
effect — for the same package, depth bound and oracle responses, any two
repository URLs produce the same graph — because every request URL is built
from the hard-coded host `https://api.nuget.org`: both URL constructors
produce a string extending that host, independently of any repository URL. -/
theorem c10_repository_url_has_no_effect :
    (∀ (http : String → Except String HttpResp)
        (json_versions : String → Option (List String))
        (extract : String → Except String (List String))
        (root : String) (max_depth : Nat) (u1 u2 : String),
      buildGraph (flatRegistry http json_versions extract) root u1 max_depth =
        buildGraph (flatRegistry http json_versions extract) root u2
          max_depth) ∧
    (∀ package_name, ∃ rest,
      get_flatcontainer_index_url package_name =
        "https://api.nuget.org" ++ rest) ∧
    (∀ package_name version, ∃ rest,
      get_download_url package_name version =
        "https://api.nuget.org" ++ rest) := by
  have hsplit : ("https://api.nuget.org/v3-flatcontainer/" : String) =
      "https://api.nuget.org" ++ "/v3-flatcontainer/" := by decide
  refine ⟨?_, ?_, ?_⟩
  · intro http jv ex root max_depth u1 u2
    rw [buildGraph, buildGraph, build_dependency_graph,
      build_dependency_graph,
      bdgF_url_irrel (flatRegistry http jv ex) u1 u2 max_depth]
  · intro package_name
    rw [get_flatcontainer_index_url, hsplit, String.append_assoc,
      String.append_assoc]
    exact ⟨_, rfl⟩
  · intro package_name version
    rw [get_download_url, hsplit]
    repeat rw [String.append_assoc]
    exact ⟨_, rfl⟩

/-! ### The manifest parser

Model of the `.nuspec` handling: the archive is a list of named entries whose
contents are already-parsed XML documents (`zipfile` + `ET.fromstring` are
external); an `ET` element has a tag — namespace-qualified tags carry the
`\x7bURI\x7d` form produced by `ElementTree` — attributes, and children.  The
flat-container variant accumulates dependency identifiers in a Python `set`
and returns `list(set)`; since CPython string hashing is randomized per
process, the iteration order of that set is modelled by an explicit
`setOrder` oracle applied to the insertion-ordered, duplicate-free contents. -/

inductive XmlNode where
  | elem (tag : String) (attrib : List (String × String))
      (children : List XmlNode)

/-- Tag of an element. -/
def XmlNode.tag : XmlNode → String
  | XmlNode.elem t _ _ => t

/-- Attribute list of an element. -/
def XmlNode.attrib : XmlNode → List (String × String)
  | XmlNode.elem _ a _ => a

/-- Children of an element. -/
def XmlNode.children : XmlNode → List XmlNode
  | XmlNode.elem _ _ c => c

/-- `element.find(tag)`: first direct child with the given tag. -/
def ET_find (children : List XmlNode) (t : String) : Option XmlNode :=
  children.find? (fun n => n.tag == t)

/-- `element.findall(tag)`: all direct children with the given tag. -/
def ET_findall (children : List XmlNode) (t : String) : List XmlNode :=
  children.filter (fun n => n.tag == t)

/-- `element.attrib.get(key)`. -/
def attrGet (n : XmlNode) (key : String) : Option String :=
  (n.attrib.find? (fun p => p.1 == key)).map (fun p => p.2)

/-- Whether a tag starts with `\x7b` (`root.tag.startswith('\x7b')`). -/
def tagStartsBrace (t : String) : Bool :=
  match t.data with
  | c :: _ => c = '\x7b'
  | [] => false

/-- Python `str.strip(c)`: remove every leading and trailing occurrence. -/
def stripChar (c : Char) (l : List Char) : List Char :=
  ((l.dropWhile (fun x => x = c)).reverse.dropWhile (fun x => x = c)).reverse

/-- Namespace detection of the flat-container variant:
`root.tag.split('\x7d')[0].strip('\x7b')` when the tag starts with `\x7b`,
else the empty namespace. -/
def namespaceOf (root_tag : String) : String :=
  if tagStartsBrace root_tag then
    ⟨stripChar '\x7b' (root_tag.data.takeWhile (fun c => c ≠ '\x7d'))⟩
  else ""

/-- Qualified lookup name: `ElementTree` resolves `ns:name` with the mapping
`ns ↦ namespace` to `\x7bnamespace\x7dname`; with no namespace the plain name
is used (the source branches on `if namespace` at every lookup). -/
def qName (namespace_ name : String) : String :=
  if namespace_ ≠ "" then "\x7b" ++ namespace_ ++ "\x7d" ++ name else name

/-- Python `set.add` on an insertion-ordered duplicate-free list. -/
def pySetAdd (l : List String) (x : String) : List String :=
  if x ∈ l then l else l ++ [x]

/-- The dependency identifiers in manifest-document order: those inside each
`group` child of the `dependencies` element, then the ungrouped ones; an
entry without an `id` attribute is skipped (`attrib.get('id')`). -/
def depIdsOf (q : String → String) (metadata : XmlNode) : List String :=
  match ET_find metadata.children (q "dependencies") with
  | none => []
  | some dependencies_node =>
      let groups := ET_findall dependencies_node.children (q "group")
      let groupedIds := groups.foldl
        (fun acc g => acc ++
          (ET_findall g.children (q "dependency")).filterMap
            (fun d => attrGet d "id"))
        []
      let ungroupedIds :=
        (ET_findall dependencies_node.children (q "dependency")).filterMap
          (fun d => attrGet d "id")
      groupedIds ++ ungroupedIds

/-- Core of the flat-container variant's `extract_dependencies` on the parsed
manifest root: detect the namespace, look up `metadata` (failing when
absent), collect the grouped and ungrouped identifiers into a set, and return
`list(set)` — the oracle `setOrder` supplies the set's iteration order. -/
def extract_from_nuspec (setOrder : List String → List String)
    (root : XmlNode) : Except String (List String) :=
  let namespace_ := namespaceOf root.tag
  let q := fun name => qName namespace_ name
  match ET_find root.children (q "metadata") with
  | none => Except.error "Invalid .nuspec format: missing metadata"
  | some metadata =>
      Except.ok (setOrder ((depIdsOf q metadata).foldl pySetAdd []))

/-- Suffix test on names (`f.endswith('.nuspec')`). -/
def endsWithB (s suf : String) : Bool :=
  suf.data.reverse.isPrefixOf s.data.reverse

/-- `extract_dependencies` of `dependency_visualizer.py`: find the `.nuspec`
entries, fail when none exists, parse the first one. -/
def extract_dependencies (setOrder : List String → List String)
    (entries : List (String × XmlNode)) : Except String (List String) :=
  match entries.filter (fun f => endsWithB f.1 ".nuspec") with
  | [] => Except.error ".nuspec file not found in the nupkg"
  | e :: _ => extract_from_nuspec setOrder e.2

/-- `dep.attrib['id']` over a dependency list: a missing `id` raises
(`KeyError`), otherwise the identifiers are appended in document order. -/
def collectIdsStrict : List XmlNode → Except String (List String)
  | [] => Except.ok []
  | d :: rest =>
      match attrGet d "id" with
      | none => Except.error "KeyError: id"
      | some i =>
          match collectIdsStrict rest with
          | Except.error e => Except.error e
          | Except.ok r => Except.ok (i :: r)

/-- The grouped-dependency loop of `main.py`: identifiers of every group, in
group order, duplicates preserved. -/
def collectGroupsStrict (q : String → String) :
    List XmlNode → Except String (List String)
  | [] => Except.ok []
  | g :: rest =>
      match collectIdsStrict (ET_findall g.children (q "dependency")) with
      | Except.error e => Except.error e
      | Except.ok ids =>
          match collectGroupsStrict q rest with
          | Except.error e => Except.error e
          | Except.ok r => Except.ok (ids ++ r)

/-- Core of `main.py`'s `extract_dependencies` on the parsed manifest root:
no namespace handling, a Python list (duplicates preserved) instead of a set,
`attrib['id']` instead of `attrib.get('id')`. -/
def extract_from_nuspec_reg (root : XmlNode) : Except String (List String) :=
  match ET_find root.children "metadata" with
  | none => Except.error "Invalid .nuspec format: missing metadata"
  | some metadata =>
      match ET_find metadata.children "dependencies" with
      | none => Except.ok []
      | some dependencies_node =>
          match collectGroupsStrict (fun n => n)
              (ET_findall dependencies_node.children "group") with
          | Except.error e => Except.error e
          | Except.ok grouped =>
              match collectIdsStrict
                  (ET_findall dependencies_node.children "dependency") with
              | Except.error e => Except.error e
              | Except.ok ungrouped => Except.ok (grouped ++ ungrouped)

/-- `extract_dependencies` of `main.py`. -/
def extract_dependencies_reg (entries : List (String × XmlNode)) :
    Except String (List String) :=
  match entries.filter (fun f => endsWithB f.1 ".nuspec") with
  | [] => Except.error ".nuspec file not found in the nupkg"
  | e :: _ => extract_from_nuspec_reg e.2

mutual

/-- Qualify every tag of a document with the namespace `uri`, as
`ElementTree` renders tags of a document whose root declares a default
namespace. -/
def addNs (uri : String) : XmlNode → XmlNode
  | XmlNode.elem t a c =>
      XmlNode.elem ("\x7b" ++ uri ++ "\x7d" ++ t) a (addNsList uri c)

/-- `addNs` on a list of children. -/
def addNsList (uri : String) : List XmlNode → List XmlNode
  | [] => []
  | n :: rest => addNs uri n :: addNsList uri rest

end

/-! ### Deduplication of the flat-container manifest parser (C6) -/

theorem foldl_pySetAdd_nodup :
    ∀ (ids acc : List String), acc.Nodup → (ids.foldl pySetAdd acc).Nodup := by
  intro ids
  induction ids with
  | nil => intro acc h; exact h
  | cons i rest ih =>
      intro acc h
      rw [List.foldl_cons]
      refine ih (pySetAdd acc i) ?_
      rw [pySetAdd]
      split
      · exact h
      · rename_i hni
        rw [List.nodup_append]
        exact ⟨h, List.nodup_singleton i,
          fun a ha hb => hni (List.mem_singleton.mp hb ▸ ha)⟩

theorem foldl_pySetAdd_mem :
    ∀ (ids acc : List String) (x : String),
      x ∈ ids.foldl pySetAdd acc ↔ x ∈ acc ∨ x ∈ ids := by
  intro ids
  induction ids with
  | nil => intro acc x; simp
  | cons i rest ih =>
      intro acc x
      rw [List.foldl_cons, ih]
      have hadd : x ∈ pySetAdd acc i ↔ x ∈ acc ∨ x = i := by
        rw [pySetAdd]
        split
        · rename_i hi
          constructor
          · exact fun h => Or.inl h
          · rintro (h | rfl)
            · exact h
            · exact hi
        · rw [List.mem_append, List.mem_singleton]
      rw [hadd, List.mem_cons]
      tauto

/-- C6 counterexample input: a manifest declaring the identifier `X` in two
groups and once ungrouped. -/
def dupDoc : XmlNode :=
  XmlNode.elem "package" []
    [XmlNode.elem "metadata" []
      [XmlNode.elem "dependencies" []
        [XmlNode.elem "group" [("targetFramework", "net45")]
          [XmlNode.elem "dependency" [("id", "X"), ("version", "1.0")] []],
         XmlNode.elem "group" [("targetFramework", "net6.0")]
          [XmlNode.elem "dependency" [("id", "X"), ("version", "1.0")] []],
         XmlNode.elem "dependency" [("id", "X"), ("version", "1.0")] []]]]

/-- C6 counterexample: on a manifest declaring `X` in two groups and once
ungrouped, `main.py`'s `extract_dependencies` returns `X` three times — the
identifier occurs more than once, so the result is not deduplicated; the
flat-container variant on the same archive returns the singleton. -/
theorem c6_reg_variant_keeps_duplicates :
    extract_dependencies_reg [("package.nuspec", dupDoc)] =
      Except.ok ["X", "X", "X"] ∧
    extract_dependencies (fun l => l) [("package.nuspec", dupDoc)] =
      Except.ok ["X"] := by
  exact ⟨by decide, by decide⟩

/-- C6 amended: the flat-container variant's `extract_dependencies` does
return a deduplicated union — whenever it succeeds on a manifest root whose
`metadata` element is present, and the set-iteration oracle is a permutation
of the set's contents, the result has no duplicate and contains exactly the
identifiers declared inside the groups or directly under `dependencies`; the
registration variant instead returns the concatenated per-group lists and can
repeat an identifier (see the counterexample). -/
theorem c6_flat_extract_deduplicates
    (setOrder : List String → List String)
    (hord : ∀ l, (setOrder l).Perm l) (root metadata : XmlNode)
    (res : List String)
    (hmd : ET_find root.children
      (qName (namespaceOf root.tag) "metadata") = some metadata)
    (hok : extract_from_nuspec setOrder root = Except.ok res) :
    res.Nodup ∧
    ∀ x, x ∈ res ↔ x ∈ depIdsOf (qName (namespaceOf root.tag)) metadata := by
  rw [extract_from_nuspec] at hok
  simp only [hmd] at hok
  have hres : res =
      setOrder ((depIdsOf (qName (namespaceOf root.tag)) metadata).foldl
        pySetAdd []) := by
    injection hok with h
    exact h.symm
  subst hres
  constructor
  · exact (hord _).symm.nodup (foldl_pySetAdd_nodup _ [] List.nodup_nil)
  · intro x
    rw [(hord _).mem_iff, foldl_pySetAdd_mem]
    simp

/-- The `metadata` child of `dupDoc`. -/
def dupDocMetadata : XmlNode :=
  XmlNode.elem "metadata" []
    [XmlNode.elem "dependencies" []
      [XmlNode.elem "group" [("targetFramework", "net45")]
        [XmlNode.elem "dependency" [("id", "X"), ("version", "1.0")] []],
       XmlNode.elem "group" [("targetFramework", "net6.0")]
        [XmlNode.elem "dependency" [("id", "X"), ("version", "1.0")] []],
       XmlNode.elem "dependency" [("id", "X"), ("version", "1.0")] []]]

/-- Witness for the amended C6 on `dupDoc` with the reversing set order. -/
theorem c6_flat_extract_deduplicates_witness :
    (["X"] : List String).Nodup ∧
    ("X" ∈ (["X"] : List String) ↔
      "X" ∈ depIdsOf (qName (namespaceOf dupDoc.tag)) dupDocMetadata) :=
  have h := c6_flat_extract_deduplicates List.reverse
    (fun l => l.reverse_perm) dupDoc dupDocMetadata ["X"] rfl rfl
  ⟨h.1, h.2 "X"⟩

/-! ### Namespace agnosticism of the flat-container parser (C7) -/

theorem takeWhile_no_brace (ud rest : List Char) (h : '\x7d' ∉ ud) :
    (ud ++ '\x7d' :: rest).takeWhile (fun c => !decide (c = '\x7d')) = ud := by
  induction ud with
  | nil => simp [List.takeWhile_cons]
  | cons c cs ih =>
      have hc : c ≠ '\x7d' := fun hcc => h (hcc ▸ List.mem_cons_self c cs)
      have hcs : '\x7d' ∉ cs := fun hm => h (List.mem_cons_of_mem c hm)
      simp [List.cons_append, List.takeWhile_cons, hc, ih hcs]

theorem dropWhile_no_char (c : Char) (l : List Char) (h : c ∉ l) :
    l.dropWhile (fun x => x = c) = l := by
  cases l with
  | nil => rfl
  | cons x xs =>
      have hx : ¬ x = c := fun hxc => h (hxc ▸ List.mem_cons_self x xs)
      rw [List.dropWhile_cons]
      simp [hx]

theorem addNs_tag (uri : String) (n : XmlNode) :
    (addNs uri n).tag = "\x7b" ++ uri ++ "\x7d" ++ n.tag := by
  cases n; rfl

theorem addNs_attrib (uri : String) (n : XmlNode) :
    (addNs uri n).attrib = n.attrib := by
  cases n; rfl

theorem addNs_children (uri : String) (n : XmlNode) :
    (addNs uri n).children = addNsList uri n.children := by
  cases n; rfl

theorem attrGet_addNs (uri : String) (n : XmlNode) (key : String) :
    attrGet (addNs uri n) key = attrGet n key := by
  cases n; rfl

theorem qtag_data (uri t : String) :
    ("\x7b" ++ uri ++ "\x7d" ++ t).data =
      '\x7b' :: (uri.data ++ '\x7d' :: t.data) := by
  simp [String.data_append]

theorem namespaceOf_qualified (uri t : String) (h1 : '\x7b' ∉ uri.data)
    (h2 : '\x7d' ∉ uri.data) :
    namespaceOf ("\x7b" ++ uri ++ "\x7d" ++ t) = uri := by
  have hd := qtag_data uri t
  have hb : tagStartsBrace ("\x7b" ++ uri ++ "\x7d" ++ t) = true := by
    simp [tagStartsBrace, hd]
  rw [namespaceOf, if_pos hb, hd]
  have hbne : ('\x7b' : Char) ≠ '\x7d' := by decide
  have htw : ('\x7b' :: (uri.data ++ '\x7d' :: t.data)).takeWhile
      (fun c => c ≠ '\x7d') = '\x7b' :: uri.data := by
    simp [List.takeWhile_cons, hbne, takeWhile_no_brace uri.data t.data h2]
  rw [htw]
  have hr : '\x7b' ∉ uri.data.reverse := fun hm => h1 (List.mem_reverse.mp hm)
  have hs : stripChar '\x7b' ('\x7b' :: uri.data) = uri.data := by
    simp [stripChar, List.dropWhile_cons, dropWhile_no_char '\x7b' uri.data h1,
      dropWhile_no_char '\x7b' uri.data.reverse hr]
  rw [hs]

theorem qtag_eq_iff (uri a b : String) :
    "\x7b" ++ uri ++ "\x7d" ++ a = "\x7b" ++ uri ++ "\x7d" ++ b ↔ a = b := by
  constructor
  · intro h
    have hd := congrArg String.data h
    rw [String.data_append, String.data_append] at hd
    exact String.ext (List.append_cancel_left hd)
  · intro h; rw [h]

theorem qtag_beq (uri a b : String) :
    (("\x7b" ++ uri ++ "\x7d" ++ a) == ("\x7b" ++ uri ++ "\x7d" ++ b)) =
      (a == b) := by
  cases hab : (a == b) with
  | false =>
      rw [beq_eq_false_iff_ne] at hab
      rw [beq_eq_false_iff_ne]
      exact fun h => hab ((qtag_eq_iff uri a b).mp h)
  | true =>
      rw [beq_iff_eq] at hab
      rw [beq_iff_eq, hab]

theorem ET_find_addNs (uri name : String) (l : List XmlNode) :
    ET_find (addNsList uri l) ("\x7b" ++ uri ++ "\x7d" ++ name) =
      Option.map (addNs uri) (ET_find l name) := by
  induction l with
  | nil => rfl
  | cons c cs ih =>
      rw [addNsList, ET_find, List.find?_cons, addNs_tag, qtag_beq]
      rw [ET_find, List.find?_cons]
      cases hc : c.tag == name with
      | false => exact ih
      | true => rfl

theorem ET_findall_addNs (uri name : String) (l : List XmlNode) :
    ET_findall (addNsList uri l) ("\x7b" ++ uri ++ "\x7d" ++ name) =
      addNsList uri (ET_findall l name) := by
  induction l with
  | nil => rfl
  | cons c cs ih =>
      rw [addNsList, ET_findall, List.filter_cons, addNs_tag, qtag_beq]
      rw [ET_findall, List.filter_cons]
      cases hc : c.tag == name with
      | false => simpa [hc] using ih
      | true => simpa [hc, addNsList] using ih

theorem filterMap_attrGet_addNs (uri : String) (l : List XmlNode) :
    (addNsList uri l).filterMap (fun d => attrGet d "id") =
      l.filterMap (fun d => attrGet d "id") := by
  induction l with
  | nil => rfl
  | cons c cs ih =>
      rw [addNsList, List.filterMap_cons, List.filterMap_cons,
        attrGet_addNs, ih]

theorem foldl_groups_addNs (uri : String) :
    ∀ (gl : List XmlNode) (acc : List String),
      (addNsList uri gl).foldl
        (fun acc g => acc ++
          (ET_findall g.children
            ("\x7b" ++ uri ++ "\x7d" ++ "dependency")).filterMap
            (fun d => attrGet d "id"))
        acc =
      gl.foldl
        (fun acc g => acc ++
          (ET_findall g.children "dependency").filterMap
            (fun d => attrGet d "id"))
        acc := by
  intro gl
  induction gl with
  | nil => intro acc; rfl
  | cons g gs ih =>
      intro acc
      rw [addNsList, List.foldl_cons, List.foldl_cons, addNs_children,
        ET_findall_addNs, filterMap_attrGet_addNs]
      exact ih _

theorem depIdsOf_addNs (uri : String) (metadata : XmlNode) :
    depIdsOf (fun n => "\x7b" ++ uri ++ "\x7d" ++ n) (addNs uri metadata) =
      depIdsOf (fun n => n) metadata := by
  simp only [depIdsOf, addNs_children, ET_find_addNs]
  cases hdn : ET_find metadata.children "dependencies" with
  | none => rfl
  | some dependencies_node =>
      simp only [Option.map_some']
      rw [addNs_children, ET_findall_addNs, ET_findall_addNs,
        foldl_groups_addNs, filterMap_attrGet_addNs]

/-- C7 amended: the flat-container variant's parser is namespace-agnostic —
for every manifest whose root tag is unqualified and every nonempty,
brace-free namespace URI, parsing the namespace-qualified document yields
exactly the same result as parsing the plain one: the namespace is detected
from the root tag and every metadata/dependencies/group/dependency lookup is
performed namespace-qualified.  The registration variant is not (see the
counterexample). -/
theorem c7_flat_extract_ns_agnostic (setOrder : List String → List String)
    (uri : String) (root : XmlNode) (hne : uri ≠ "")
    (h1 : '\x7b' ∉ uri.data) (h2 : '\x7d' ∉ uri.data)
    (hroot : tagStartsBrace root.tag = false) :
    extract_from_nuspec setOrder (addNs uri root) =
      extract_from_nuspec setOrder root := by
  have hns : namespaceOf (addNs uri root).tag = uri := by
    rw [addNs_tag]
    exact namespaceOf_qualified uri root.tag h1 h2
  have hns0 : namespaceOf root.tag = "" := by
    rw [namespaceOf, if_neg]
    rw [hroot]
    simp
  have hqf : (fun name => qName uri name) =
      (fun name => "\x7b" ++ uri ++ "\x7d" ++ name) :=
    funext fun n => if_pos hne
  have hqf0 : (fun name => qName "" name) = (fun name => name) :=
    funext fun n => if_neg (by simp)
  simp only [extract_from_nuspec, hns, hns0, hqf, hqf0]
  rw [addNs_children, ET_find_addNs]
  cases hmd : ET_find root.children "metadata" with
  | none => rfl
  | some metadata =>
      simp only [Option.map_some']
      rw [depIdsOf_addNs]

/-- C7 counterexample input: the plain two-dependency manifest of the
repository's unit test. -/
def plainDoc : XmlNode :=
  XmlNode.elem "package" []
    [XmlNode.elem "metadata" []
      [XmlNode.elem "dependencies" []
        [XmlNode.elem "dependency"
          [("id", "Newtonsoft.Json"), ("version", "12.0.3")] [],
         XmlNode.elem "dependency"
          [("id", "Serilog"), ("version", "2.10.0")] []]]]

/-- C7 counterexample: on the namespace-qualified form of the same manifest,
`main.py`'s `extract_dependencies` misses the metadata element and fails with
the manifest-invalid error, whereas it succeeds on the namespace-free form —
so the claim's "both must work" fails for the registration variant. -/
theorem c7_reg_variant_not_ns_agnostic :
    extract_dependencies_reg [("package.nuspec", plainDoc)] =
      Except.ok ["Newtonsoft.Json", "Serilog"] ∧
    extract_dependencies_reg [("package.nuspec",
        addNs "http://schemas.microsoft.com/packaging/2013/05/nuspec.xsd"
          plainDoc)] =
      Except.error "Invalid .nuspec format: missing metadata" :=
  ⟨by decide, by decide⟩

/-- Witness for the amended C7 on the unit-test manifest with a concrete
namespace. -/
theorem c7_flat_extract_ns_agnostic_witness :
    extract_from_nuspec (fun l => l) (addNs "urn:nuspec" plainDoc) =
      extract_from_nuspec (fun l => l) plainDoc :=
  c7_flat_extract_ns_agnostic (fun l => l) "urn:nuspec" plainDoc (by decide)
    (by decide) (by decide) (by decide)

/-! ### The DOT renderer (C8) -/

/-- One edge line: `    "<parent>" -> "<child>";` with a trailing newline
(the f-string of the source). -/
def edgeLine (pkg dep : String) : String :=
  "    \"" ++ pkg ++ "\" -> \"" ++ dep ++ "\";\n"

/-- `generate_dot` of both variants: start from the `digraph` header line,
append one edge line per recorded dependency — graph entries in insertion
order, dependencies in stored order — and close with a brace on its own
line. -/
def generate_dot (graph : DepGraph) : String :=
  (graph.foldl
    (fun dot p => p.2.foldl (fun dot dep => dot ++ edgeLine p.1 dep) dot)
    "digraph Dependencies \x7b\n") ++ "\x7d"

/-- Concatenation of a list of strings. -/
def strJoin : List String → String
  | [] => ""
  | s :: rest => s ++ strJoin rest

theorem foldl_append_str {β : Type} (f : β → String) :
    ∀ (l : List β) (init : String),
      l.foldl (fun acc x => acc ++ f x) init = init ++ strJoin (l.map f) := by
  intro l
  induction l with
  | nil =>
      intro init
      rw [List.foldl_nil, List.map_nil, strJoin, String.append_empty]
  | cons b t ih =>
      intro init
      rw [List.foldl_cons, List.map_cons, strJoin, ih, String.append_assoc]

theorem generate_dot_eq (graph : DepGraph) :
    generate_dot graph =
      "digraph Dependencies \x7b\n" ++
        strJoin (graph.map (fun p => strJoin (p.2.map (edgeLine p.1)))) ++
        "\x7d" := by
  rw [generate_dot]
  congr 1
  exact (List.foldl_ext
      (fun (dot : String) (p : String × List String) =>
        p.2.foldl (fun dot dep => dot ++ edgeLine p.1 dep) dot)
      (fun (dot : String) (p : String × List String) =>
        dot ++ strJoin (p.2.map (edgeLine p.1)))
      "digraph Dependencies \x7b\n"
      (fun acc p _ => foldl_append_str (edgeLine p.1) p.2 acc)).trans
    (foldl_append_str
      (fun (p : String × List String) => strJoin (p.2.map (edgeLine p.1)))
      graph _)

theorem strJoin_append :
    ∀ (xs ys : List String), strJoin (xs ++ ys) = strJoin xs ++ strJoin ys := by
  intro xs ys
  induction xs with
  | nil =>
      rw [List.nil_append, strJoin]
      exact (String.empty_append _).symm
  | cons s t ih => rw [List.cons_append, strJoin, strJoin, ih, String.append_assoc]

/-- Number of newline characters in a string. -/
def countNl (s : String) : Nat := s.data.count '\n'

theorem countNl_append (a b : String) :
    countNl (a ++ b) = countNl a + countNl b := by
  rw [countNl, countNl, countNl, String.data_append, List.count_append]

theorem countNl_edgeLine (pkg dep : String) (hp : '\n' ∉ pkg.data)
    (hd : '\n' ∉ dep.data) : countNl (edgeLine pkg dep) = 1 := by
  rw [edgeLine, countNl_append, countNl_append, countNl_append,
    countNl_append]
  rw [show countNl pkg = 0 from List.count_eq_zero.mpr hp,
    show countNl dep = 0 from List.count_eq_zero.mpr hd]
  decide

theorem countNl_strJoin_edges (pkg : String) (hp : '\n' ∉ pkg.data) :
    ∀ deps : List String, (∀ d ∈ deps, '\n' ∉ d.data) →
      countNl (strJoin (deps.map (edgeLine pkg))) = deps.length := by
  intro deps
  induction deps with
  | nil => intro _; rfl
  | cons d ds ih =>
      intro h
      rw [List.map_cons, strJoin, countNl_append,
        countNl_edgeLine pkg d hp (h d (List.mem_cons_self d ds)),
        ih (fun x hx => h x (List.mem_cons_of_mem d hx)), List.length_cons]
      omega

theorem countNl_strJoin_graph :
    ∀ graph : DepGraph,
      (∀ p ∈ graph, '\n' ∉ p.1.data ∧ ∀ d ∈ p.2, '\n' ∉ d.data) →
      countNl (strJoin (graph.map
        (fun p => strJoin (p.2.map (edgeLine p.1))))) =
        (graph.map (fun p => p.2.length)).sum := by
  intro graph
  induction graph with
  | nil => intro _; decide
  | cons p t ih =>
      intro h
      have hp := h p (List.mem_cons_self p t)
      rw [List.map_cons, strJoin, countNl_append,
        countNl_strJoin_edges p.1 hp.1 p.2 hp.2,
        ih (fun x hx => h x (List.mem_cons_of_mem p hx)), List.map_cons,
        List.sum_cons]

theorem strJoin_mid (A B : List String) :
    strJoin (A ++ "" :: B) = strJoin (A ++ B) := by
  rw [strJoin_append, strJoin_append, strJoin, String.empty_append]

/-- C8: `generate_dot` produces exactly the `digraph Dependencies \x7b`
header line, one line per edge — graph entries in insertion order,
dependencies within an entry in stored order — and a closing brace on its own
line: (1) the output is the header, the concatenated edge lines, then the
brace; (2) an entry with an empty dependency list contributes no line;
(3) when names contain no newline, the output has exactly one newline per
edge plus one for the header (the closing brace line has none, as the brace
ends the text); (4) on the spec's four-node graph the output is exactly the
expected text. -/
theorem c8_generate_dot_exact_lines :
    (∀ graph : DepGraph,
      generate_dot graph =
        "digraph Dependencies \x7b\n" ++
          strJoin (graph.map (fun p => strJoin (p.2.map (edgeLine p.1)))) ++
          "\x7d") ∧
    (∀ (g1 g2 : DepGraph) (pkg : String),
      generate_dot (g1 ++ (pkg, []) :: g2) = generate_dot (g1 ++ g2)) ∧
    (∀ graph : DepGraph,
      (∀ p ∈ graph, '\n' ∉ p.1.data ∧ ∀ d ∈ p.2, '\n' ∉ d.data) →
      countNl (generate_dot graph) =
        1 + (graph.map (fun p => p.2.length)).sum) ∧
    generate_dot [("A", ["B", "C"]), ("B", ["D"]), ("C", []), ("D", [])] =
      "digraph Dependencies \x7b\n    \"A\" -> \"B\";\n    \"A\" -> \"C\";\n    \"B\" -> \"D\";\n\x7d" := by
  refine ⟨generate_dot_eq, ?_, ?_, by decide⟩
  · intro g1 g2 pkg
    rw [generate_dot_eq, generate_dot_eq, List.map_append, List.map_cons,
      List.map_append]
    have : strJoin ((([] : List String).map (edgeLine pkg))) = "" := rfl
    rw [this, strJoin_mid]
  · intro graph h
    rw [generate_dot_eq, countNl_append, countNl_append,
      countNl_strJoin_graph graph h]
    have h1 : countNl "digraph Dependencies \x7b\n" = 1 := by decide
    have h2 : countNl "\x7d" = 0 := by decide
    rw [h1, h2]
    omega

/-- Witness for C8's newline-count conjunct at the spec's four-node graph. -/
theorem c8_generate_dot_exact_lines_witness :
    countNl (generate_dot [("A", ["B", "C"]), ("B", ["D"]), ("C", []),
      ("D", [])]) =
      1 + (([("A", ["B", "C"]), ("B", ["D"]), ("C", []), ("D", [])] :
        DepGraph).map (fun p => p.2.length)).sum :=
  c8_generate_dot_exact_lines.2.2.1
    [("A", ["B", "C"]), ("B", ["D"]), ("C", []), ("D", [])] (by decide)

/-! ### Set-iteration order and run-to-run determinism (C9)

The flat-container `extract_dependencies` returns `list(dependencies)` for a
Python `set`; CPython randomizes string hashing per process, so two runs of
the same program over identical registry responses may iterate that set in
different orders.  The registry below gives byte-identical responses for any
choice of the modelled iteration order; the iteration order is the only thing
the two compared runs differ in.  Because the depth bound interacts with
traversal order, a different iteration order can change not just the ordering
of dependency lists but which packages are reached within the bound at
all. -/

/-- A manifest declaring the given dependency identifiers. -/
def c9Manifest (ids : List String) : XmlNode :=
  XmlNode.elem "package" []
    [XmlNode.elem "metadata" []
      [XmlNode.elem "dependencies" []
        (ids.map (fun i =>
          XmlNode.elem "dependency" [("id", i), ("version", "1.0")] []))]]

/-- A registry with dependencies A → \x7bB, C\x7d, B → \x7bC\x7d,
C → \x7bD\x7d, D → \x7bE\x7d; the set-iteration order of the manifest parser
is the parameter, and every other response is independent of it. -/
def c9DeepReg (setOrder : List String → List String) :
    Registry (List (String × XmlNode)) :=
  { get_all_versions := fun _ => Except.ok ["1.0.0"]
    get_latest_stable_version := get_latest_stable_version
    download_nupkg := fun package_name _ =>
      Except.ok [("package.nuspec", c9Manifest (
        if pyLowerS package_name = "a" then ["B", "C"]
        else if pyLowerS package_name = "b" then ["C"]
        else if pyLowerS package_name = "c" then ["D"]
        else if pyLowerS package_name = "d" then ["E"]
        else []))]
    extract_dependencies := extract_dependencies setOrder }

/-- Edges of a graph in render order. -/
def edgesOf (g : DepGraph) : List (String × String) :=
  g.foldl (fun acc p => acc ++ p.2.map (fun d => (p.1, d))) []

/-- C9 counterexample: with identical registry responses and `maxDepth = 2`,
two set-iteration orders — the identity and the reversal, both permutations
of the set's contents, as `list(set)` may produce in two CPython processes —
give different graphs.  Under the identity order `C` is first reached at
depth 2 through `B`, so `D` is cut off at depth 3; under the reversed order
`C` is processed first at depth 1 and `D` is resolved at depth 2.  Hence the
rendered outputs differ, the key sets differ (`D` is a key in one run only),
and the edge sets differ (`D → E` exists in one run only) — so no part of
the claimed run-to-run identity is independent of the hash-dependent set
iteration order. -/
theorem c9_output_depends_on_set_order :
    buildGraph (c9DeepReg (fun l => l)) "A" "u" 2 =
      [("A", ["B", "C"]), ("B", ["C"]), ("C", ["D"])] ∧
    buildGraph (c9DeepReg List.reverse) "A" "u" 2 =
      [("A", ["C", "B"]), ("C", ["D"]), ("D", ["E"]), ("B", ["C"])] ∧
    generate_dot (buildGraph (c9DeepReg (fun l => l)) "A" "u" 2) ≠
      generate_dot (buildGraph (c9DeepReg List.reverse) "A" "u" 2) ∧
    ("D" ∉ (buildGraph (c9DeepReg (fun l => l)) "A" "u" 2).map Prod.fst ∧
      "D" ∈ (buildGraph (c9DeepReg List.reverse) "A" "u" 2).map Prod.fst) ∧
    (("D", "E") ∉ edgesOf (buildGraph (c9DeepReg (fun l => l)) "A" "u" 2) ∧
      ("D", "E") ∈ edgesOf (buildGraph (c9DeepReg List.reverse) "A" "u" 2)) ∧
    (List.reverse ["B", "C"]).Perm ["B", "C"] := by
  exact ⟨by decide, by decide, by decide, ⟨by decide, by decide⟩,
    ⟨by decide, by decide⟩, by decide⟩

theorem extract_from_nuspec_ext (o1 o2 : List String → List String)
    (h : ∀ l, o1 l = o2 l) (root : XmlNode) :
    extract_from_nuspec o1 root = extract_from_nuspec o2 root := by
  simp only [extract_from_nuspec]
  cases hmd : ET_find root.children
      (qName (namespaceOf root.tag) "metadata") with
  | none => rfl
  | some metadata => simp only [h]

theorem extract_dependencies_ext (o1 o2 : List String → List String)
    (h : ∀ l, o1 l = o2 l) (entries : List (String × XmlNode)) :
    extract_dependencies o1 entries = extract_dependencies o2 entries := by
  rw [extract_dependencies, extract_dependencies]
  cases hf : entries.filter (fun f => endsWithB f.1 ".nuspec") with
  | nil => rfl
  | cons e rest => exact extract_from_nuspec_ext o1 o2 h e.2

theorem c9DeepReg_resolve_ext (o1 o2 : List String → List String)
    (h : ∀ l, o1 l = o2 l) :
    ∀ pkg, resolve_package (c9DeepReg o1) pkg =
      resolve_package (c9DeepReg o2) pkg := by
  intro pkg
  simp only [resolve_package, c9DeepReg]
  cases hsel : get_latest_stable_version ["1.0.0"] with
  | error e => rfl
  | ok v => exact extract_dependencies_ext o1 o2 h _

/-- The builder core is determined by the resolution responses: registries
whose four steps answer identically — including the iteration order that
`extract_dependencies` produces — yield identical runs. -/
theorem bdgF_resolve_ext {α : Type} (reg1 reg2 : Registry α)
    (h : ∀ pkg, resolve_package reg1 pkg = resolve_package reg2 pkg)
    (repository_url : String) (max_depth : Nat) :
    ∀ (fuel : Nat) (pkg : String) (depth : Nat) (g : DepGraph)
      (vis : List String),
      bdgF reg1 repository_url max_depth fuel pkg depth g vis =
        bdgF reg2 repository_url max_depth fuel pkg depth g vis := by
  intro fuel
  induction fuel with
  | zero => intro pkg depth g vis; rfl
  | succ fuel ih =>
      intro pkg depth g vis
      by_cases hd : depth > max_depth
      · rw [bdgF, if_pos hd, bdgF, if_pos hd]
      · by_cases hv : pyLowerS pkg ∈ vis
        · rw [bdgF, if_neg hd, if_pos hv, bdgF, if_neg hd, if_pos hv]
        · rw [bdgF, if_neg hd, if_neg hv, bdgF, if_neg hd, if_neg hv, ← h pkg]
          cases hres : resolve_package reg1 pkg with
          | error e => rfl
          | ok dependencies =>
              exact List.foldl_ext _ _ _
                (fun s dep _ => ih dep (depth + 1) s.1 s.2)

/-- C9 amended: (1) two runs of `build_dependency_graph` with the same
arguments whose resolution steps answer identically — identical registry
responses and the same `list(set(...))` iteration order — produce identical
graphs, hence byte-identical rendered output; (2) what survives a change of
iteration order is only the content of each single extraction: for any valid
iteration order, a successful flat-container extraction returns a permutation
of the deduplicated identifier list.  Nothing stronger is
order-independent — under a different iteration order even the key sets and
edge sets of the result can differ (see the counterexample). -/
theorem c9_deterministic_given_set_order :
    (∀ (α : Type) (reg1 reg2 : Registry α),
      (∀ pkg, resolve_package reg1 pkg = resolve_package reg2 pkg) →
      ∀ (root repository_url : String) (max_depth : Nat),
        buildGraph reg1 root repository_url max_depth =
          buildGraph reg2 root repository_url max_depth) ∧
    (∀ (setOrder : List String → List String),
      (∀ l, (setOrder l).Perm l) →
      ∀ (root metadata : XmlNode) (res : List String),
        ET_find root.children
          (qName (namespaceOf root.tag) "metadata") = some metadata →
        extract_from_nuspec setOrder root = Except.ok res →
        res.Perm ((depIdsOf (qName (namespaceOf root.tag)) metadata).foldl
          pySetAdd [])) := by
  constructor
  · intro α reg1 reg2 h root repository_url max_depth
    rw [buildGraph, buildGraph, build_dependency_graph,
      build_dependency_graph,
      bdgF_resolve_ext reg1 reg2 h repository_url max_depth _ root 0 [] []]
  · intro setOrder hord root metadata res hmd hok
    rw [extract_from_nuspec] at hok
    simp only [hmd] at hok
    have hres : res =
        setOrder ((depIdsOf (qName (namespaceOf root.tag)) metadata).foldl
          pySetAdd []) := by
      injection hok with h
      exact h.symm
    rw [hres]
    exact hord _

/-- The `metadata` child of `c9Manifest ["X", "Y"]`. -/
def c9MetaXY : XmlNode :=
  XmlNode.elem "metadata" []
    [XmlNode.elem "dependencies" []
      [XmlNode.elem "dependency" [("id", "X"), ("version", "1.0")] [],
       XmlNode.elem "dependency" [("id", "Y"), ("version", "1.0")] []]]

/-- Witness for the amended C9: two representations of the same resolution
behaviour (identity versus double reversal as set order) build identical
graphs, and the reversed extraction result is a permutation of the
deduplicated identifier list. -/
theorem c9_deterministic_given_set_order_witness :
    buildGraph (c9DeepReg (fun l => l)) "A" "u" 2 =
      buildGraph (c9DeepReg (fun l => List.reverse (List.reverse l)))
        "A" "u" 2 ∧
    (["Y", "X"] : List String).Perm
      ((depIdsOf (qName (namespaceOf (c9Manifest ["X", "Y"]).tag))
        c9MetaXY).foldl pySetAdd []) :=
  ⟨c9_deterministic_given_set_order.1 (List (String × XmlNode))
      (c9DeepReg (fun l => l))
      (c9DeepReg (fun l => List.reverse (List.reverse l)))
      (c9DeepReg_resolve_ext (fun l => l)
        (fun l => List.reverse (List.reverse l))
        (fun l => (List.reverse_reverse l).symm))
      "A" "u" 2,
    c9_deterministic_given_set_order.2 List.reverse
      (fun l => l.reverse_perm) (c9Manifest ["X", "Y"]) c9MetaXY ["Y", "X"]
      rfl rfl⟩
